import Mathlib

/-!
Shallow embedding of `src/asm/statements.rs` from `cargo-show-asm`: the
line grammar that classifies one line of textual assembly into a
`Statement` (labels, directives, instructions, blank lines, and a
catch-all), together with the classification predicates and the plain
(uncolored, undemangled) renderers for `File` and `Loc`.

Input buffers are modelled as `List Char`; the nom combinators used by the
source are modelled as functions `List Char → Option (List Char × α)`
returning the unconsumed rest and the parsed value, exactly as nom's
complete parsers do (`Err::Error` becomes `none`).
-/

set_option maxRecDepth 4000

namespace Asm

/-- A parser over a character buffer: returns the unconsumed rest and a
value, or fails (nom's `IResult` with errors collapsed to `none`). -/
def Parser (α : Type) : Type := List Char → Option (List Char × α)

/-- nom `map`. -/
def pmap {α β : Type} (f : α → β) (p : Parser α) : Parser β := fun cs =>
  match p cs with
  | some (r, a) => some (r, f a)
  | none => none

/-- nom `alt` for two alternatives; larger `alt`s are nested. -/
def palt {α : Type} (p q : Parser α) : Parser α := fun cs =>
  match p cs with
  | some v => some v
  | none => q cs

/-- nom `pair` / adjacent entries of `tuple`. -/
def pseq {α β : Type} (p : Parser α) (q : Parser β) : Parser (α × β) := fun cs =>
  match p cs with
  | some (cs1, a) =>
    match q cs1 with
    | some (cs2, b) => some (cs2, (a, b))
    | none => none
  | none => none

/-- nom `preceded`. -/
def preceded {α β : Type} (p : Parser α) (q : Parser β) : Parser β :=
  pmap Prod.snd (pseq p q)

/-- nom `terminated`. -/
def terminated {α β : Type} (p : Parser α) (q : Parser β) : Parser α :=
  pmap Prod.fst (pseq p q)

/-- nom `delimited`. -/
def delimited {α β γ : Type} (p : Parser α) (q : Parser β) (r : Parser γ) : Parser β :=
  pmap (fun x => x.1.2) (pseq (pseq p q) r)

/-- nom `opt`: never fails, consumes nothing on inner failure. -/
def popt {α : Type} (p : Parser α) : Parser (Option α) := fun cs =>
  match p cs with
  | some (r, a) => some (r, some a)
  | none => some (cs, none)

/-- nom `verify`. -/
def pverify {α : Type} (p : Parser α) (f : α → Bool) : Parser α := fun cs =>
  match p cs with
  | some (r, a) => if f a then some (r, a) else none
  | none => none

/-- nom `recognize`: on success returns the consumed input slice. -/
def precognize {α : Type} (p : Parser α) : Parser (List Char) := fun cs =>
  match p cs with
  | some (r, _) => some (r, cs.take (cs.length - r.length))
  | none => none

/-- nom `tag`: matches a literal, returns it. -/
def tag (s : List Char) : Parser (List Char) := fun cs =>
  if s.isPrefixOf cs then some (cs.drop s.length, s) else none

/-- nom `take_while1`. -/
def takeWhile1 (p : Char → Bool) : Parser (List Char) := fun cs =>
  if (cs.takeWhile p).isEmpty then none
  else some (cs.dropWhile p, cs.takeWhile p)

/-- nom `take_while_m_n`. -/
def takeWhileMN (m n : Nat) (p : Char → Bool) : Parser (List Char) := fun cs =>
  if ((cs.takeWhile p).take n).length < m then none
  else some (cs.drop ((cs.takeWhile p).take n).length, (cs.takeWhile p).take n)

/-- The double-quote character. -/
def dq : Char := Char.ofNat 34

/-- ASCII decimal digit, as used by nom's integer parsers. -/
def isDigitChar (c : Char) : Bool :=
  decide (48 ≤ c.toNat) && decide (c.toNat ≤ 57)

/-- nom `AsChar::is_alphanum` for `char`: ASCII letter or ASCII digit. -/
def isAlphanumChar (c : Char) : Bool :=
  isDigitChar c
    || (decide (65 ≤ c.toNat) && decide (c.toNat ≤ 90))
    || (decide (97 ≤ c.toNat) && decide (c.toNat ≤ 122))

/-- nom `space1` character class: space or tab. -/
def isSpaceChar (c : Char) : Bool := c == ' ' || c == '\t'

/-- nom `is_hex_digit`: `0-9`, `a-f`, `A-F`. -/
def isHexChar (c : Char) : Bool :=
  isDigitChar c
    || (decide (97 ≤ c.toNat) && decide (c.toNat ≤ 102))
    || (decide (65 ≤ c.toNat) && decide (c.toNat ≤ 70))

/-- nom `character::complete::space1`. -/
def space1 : Parser (List Char) := takeWhile1 isSpaceChar

/-- nom `character::complete::hex_digit1`. -/
def hexDigit1 : Parser (List Char) := takeWhile1 isHexChar

/-- Numeric value of a decimal digit run, most significant first, in the
order nom's `u64` parser accumulates it. -/
def decVal (ds : List Char) : Nat :=
  ds.foldl (fun a c => 10 * a + (c.toNat - 48)) 0

/-- nom `character::complete::u64`: one-or-more decimal digits, failing on
`u64` overflow (values are `Nat` here, with the `2^64` bound explicit). -/
def parseU64 : Parser Nat := fun cs =>
  if (cs.takeWhile isDigitChar).isEmpty then none
  else if decVal (cs.takeWhile isDigitChar) < 2 ^ 64 then
    some (cs.dropWhile isDigitChar, decVal (cs.takeWhile isDigitChar))
  else none

/-- Character class of nom `not_line_ending`: everything except CR and LF. -/
def notCRLF (c : Char) : Bool := !(c == '\r' || c == '\n')

/-- nom `character::complete::not_line_ending` (complete): characters up to
the first CR or LF; a CR not followed by LF is an error. -/
def notLineEnding : Parser (List Char) := fun cs =>
  match cs.dropWhile notCRLF with
  | [] => some ([], cs.takeWhile notCRLF)
  | c :: r2 =>
    if c = '\n' then some (c :: r2, cs.takeWhile notCRLF)
    else if r2.head? = some '\n' then some (c :: r2, cs.takeWhile notCRLF)
    else none

/-- nom `character::complete::newline`: the single character LF. -/
def newline : Parser Char := fun cs =>
  match cs with
  | c :: r => if c = '\n' then some (r, '\n') else none
  | [] => none

/-- `LabelKind` lives in `crate::demangle`, outside this module. Modelled
from the spec: `enum { Local, Temp, Global, Unknown }`. -/
inductive LabelKind : Type
  | Local : LabelKind
  | Temp : LabelKind
  | Global : LabelKind
  | Unknown : LabelKind
deriving DecidableEq, Repr

/-- Modelled from the spec: `demangle::label_kind` is an external pure
classifier from label text to a kind tag, explicitly out of scope for the
line grammar ("the core does not decide it"); its value never influences
any property proved below, so it is modelled as a constant function. -/
def label_kind (_id : List Char) : LabelKind := LabelKind.Unknown

/-- `pub struct Label<'a> { pub id: &'a str, pub kind: LabelKind }` -/
structure Label : Type where
  id : List Char
  kind : LabelKind
deriving DecidableEq, Repr

/-- `pub struct Instruction<'a> { pub op: &'a str, pub args: Option<&'a str> }` -/
structure Instruction : Type where
  op : List Char
  args : Option (List Char)
deriving DecidableEq, Repr

/-- `pub struct Loc<'a> { file: u64, line: u64, column: u64, extra: Option<&'a str> }` -/
structure Loc : Type where
  file : Nat
  line : Nat
  column : Nat
  extra : Option (List Char)
deriving DecidableEq, Repr

/-- `impl PartialEq for Loc`: compares only `file` and `line`. -/
def locEq (a b : Loc) : Bool :=
  a.file == b.file && a.line == b.line

/-- `pub enum FilePath<'a> { FullPath(&'a str), PathAndFileName { path: &'a str, name: &'a str } }` -/
inductive FilePath : Type
  | FullPath : List Char → FilePath
  | PathAndFileName : List Char → List Char → FilePath
deriving DecidableEq, Repr

/-- `std::path::Path::join` on Unix string paths, as used by
`FilePath::as_full_path`: an absolute `name` replaces `path`; otherwise the
two are joined with a single separator. -/
def pathJoin (p n : List Char) : List Char :=
  if n.head? = some '/' then n
  else if p = [] then n
  else if p.getLast? = some '/' then p ++ n
  else p ++ '/' :: n

/-- `FilePath::as_full_path`, with the resulting `Path` kept as its
character string. -/
def FilePath.as_full_path : FilePath → List Char
  | FilePath.FullPath p => p
  | FilePath.PathAndFileName p n => pathJoin p n

/-- `pub struct File<'a> { pub index: u64, pub path: FilePath<'a>, pub md5: Option<&'a str> }` -/
structure File : Type where
  index : Nat
  path : FilePath
  md5 : Option (List Char)
deriving DecidableEq, Repr

/-- `pub struct GenericDirective<'a>(pub &'a str)` -/
structure GenericDirective : Type where
  text : List Char
deriving DecidableEq, Repr

/-- `pub enum Directive<'a>` -/
inductive Directive : Type
  | File : File → Directive
  | Loc : Loc → Directive
  | Generic : GenericDirective → Directive
  | Set : List Char → Directive
  | SubsectionsViaSym : Directive
  | SectionStart : List Char → Directive
deriving DecidableEq, Repr

/-- `pub enum Statement<'a>` -/
inductive Statement : Type
  | Label : Label → Statement
  | Directive : Directive → Statement
  | Instruction : Instruction → Statement
  | Nothing : Statement
  | Dunno : List Char → Statement
deriving DecidableEq, Repr

/-- `fn good_for_label(c: char) -> bool` -/
def good_for_label (c : Char) : Bool :=
  c == '.' || c == '$' || c == '_'
    || (decide (97 ≤ c.toNat) && decide (c.toNat ≤ 122))
    || (decide (65 ≤ c.toNat) && decide (c.toNat ≤ 90))
    || (decide (48 ≤ c.toNat) && decide (c.toNat ≤ 57))

/-- `Label::parse`: a bare label over `good_for_label` followed by `:`, or
a quoted label `"…":`. -/
def Label.parse : Parser Label :=
  palt
    (pmap (fun id => Label.mk id (label_kind id))
      (terminated (takeWhile1 good_for_label) (tag [':'])))
    (pmap (fun id => Label.mk id (label_kind id))
      (delimited (tag [dq]) (takeWhile1 (fun c => c != dq)) (tag [dq, ':'])))

/-- `Instruction::parse_sharp`: one or two `#` then the rest of the line,
recognized as the opcode. -/
def Instruction.parse_sharp : Parser Instruction :=
  pmap (fun op => Instruction.mk op none)
    (precognize (pseq (takeWhileMN 1 2 (fun c => c == '#')) notLineEnding))

/-- `Instruction::parse_regular`: opcode over alphanumeric, `.`, `_`, then
optionally spaces and raw operand text. -/
def Instruction.parse_regular : Parser Instruction :=
  pmap (fun x => Instruction.mk x.1 x.2)
    (pseq (takeWhile1 (fun c => isAlphanumChar c || c == '.' || c == '_'))
      (popt (preceded space1 notLineEnding)))

/-- `Instruction::parse`: a tab, then regular or sharp form. -/
def Instruction.parse : Parser Instruction :=
  preceded (tag ['\t']) (palt Instruction.parse_regular Instruction.parse_sharp)

/-- The literal `"\t.loc\t"`. -/
def tLoc : List Char := ['\t', '.', 'l', 'o', 'c', '\t']

/-- `Loc::parse`. -/
def Loc.parse : Parser Loc :=
  pmap
    (fun x =>
      match x with
      | ((((((_, file), _), line), _), column), extra) => Loc.mk file line column extra)
    (pseq
      (pseq (pseq (pseq (pseq (pseq (tag tLoc) parseU64) space1) parseU64) space1) parseU64)
      (popt (preceded (tag [' ']) (takeWhile1 (fun c => c != '\n')))))

/-- The literal `"\t.file\t"`. -/
def tFile : List Char := ['\t', '.', 'f', 'i', 'l', 'e', '\t']

/-- The quoted-string sub-parser local to `File::parse`. -/
def filename : Parser (List Char) :=
  delimited (tag [dq]) (takeWhile1 (fun c => c != dq)) (tag [dq])

/-- `File::parse`. -/
def File.parse : Parser File :=
  pmap
    (fun x =>
      match x with
      | (((((_, fileno), _), filepath), fname), md5) =>
        File.mk fileno
          (match fname with
           | some pr => FilePath.PathAndFileName filepath pr.2
           | none => FilePath.FullPath filepath)
          (md5.map Prod.snd))
    (pseq
      (pseq (pseq (pseq (pseq (tag tFile) parseU64) space1) filename)
        (popt (pseq space1 filename)))
      (popt (pseq space1 hexDigit1)))

/-- Rust `str::trim` on the ASCII whitespace relevant here. -/
def trimChars (s : List Char) : List Char :=
  ((s.dropWhile Char.isWhitespace).reverse.dropWhile Char.isWhitespace).reverse

/-- The `label` binding of `parse_statement`. -/
def labelStmt : Parser Statement := pmap Statement.Label Label.parse

/-- The `file` binding of `parse_statement`. -/
def fileDir : Parser Directive := pmap Directive.File File.parse

/-- The `loc` binding of `parse_statement`. -/
def locDir : Parser Directive := pmap Directive.Loc Loc.parse

/-- The literal `"\t.section"`. -/
def tSection : List Char := ['\t', '.', 's', 'e', 'c', 't', 'i', 'o', 'n']

/-- The literal `"\t."`. -/
def tDot : List Char := ['\t', '.']

/-- The literal `".set"`. -/
def tSet : List Char := ['.', 's', 'e', 't']

/-- The literal `".subsections_via_symbols"`. -/
def tSSVS : List Char :=
  ['.', 's', 'u', 'b', 's', 'e', 'c', 't', 'i', 'o', 'n', 's',
   '_', 'v', 'i', 'a', '_', 's', 'y', 'm', 'b', 'o', 'l', 's']

/-- The `section` binding of `parse_statement`. -/
def sectionDir : Parser Directive :=
  pmap (fun s => Directive.SectionStart (trimChars s))
    (preceded (tag tSection) (takeWhile1 (fun c => c != '\n')))

/-- The `generic` binding of `parse_statement`. -/
def genericDir : Parser Directive :=
  pmap (fun s => Directive.Generic (GenericDirective.mk s))
    (preceded (tag tDot) (takeWhile1 (fun c => c != '\n')))

/-- The `set` binding of `parse_statement`. -/
def setDir : Parser Directive :=
  pmap Directive.Set (preceded (tag tSet) (takeWhile1 (fun c => c != '\n')))

/-- The `ssvs` binding of `parse_statement`. -/
def ssvsDir : Parser Directive :=
  pmap (fun _ => Directive.SubsectionsViaSym) (tag tSSVS)

/-- The `dunno` binding of `parse_statement`: any non-empty rest of line. -/
def dunnoStmt : Parser Statement :=
  pmap Statement.Dunno (takeWhile1 (fun c => c != '\n'))

/-- The `instr` binding of `parse_statement`. -/
def instrStmt : Parser Statement := pmap Statement.Instruction Instruction.parse

/-- The `nothing` binding of `parse_statement`: an empty rest of line. -/
def nothingStmt : Parser Statement :=
  pmap (fun _ => Statement.Nothing) (pverify notLineEnding List.isEmpty)

/-- The `dir` binding of `parse_statement`: directive alternatives in
source order `file, loc, set, ssvs, section, generic`. -/
def dirStmt : Parser Statement :=
  pmap Statement.Directive
    (palt fileDir (palt locDir (palt setDir (palt ssvsDir (palt sectionDir genericDir)))))

/-- `pub fn parse_statement`: the line dispatcher, each alternative
terminated by a newline. -/
def parse_statement : Parser Statement :=
  palt (terminated labelStmt newline)
    (palt (terminated dirStmt newline)
      (palt (terminated instrStmt newline)
        (palt (terminated nothingStmt newline)
          (terminated dunnoStmt newline))))

/-- The literal `"Lfunc_end"`. -/
def fnEndLit : List Char := ['L', 'f', 'u', 'n', 'c', '_', 'e', 'n', 'd']

/-- The literal `"globl\t"`. -/
def globlLit : List Char := ['g', 'l', 'o', 'b', 'l', '\t']

/-- `str::strip_prefix('.')` followed by `unwrap_or(id)`: drop one leading
`.` when present. -/
def dropDot (id : List Char) : List Char :=
  match id with
  | c :: r => if c = '.' then r else c :: r
  | [] => []

/-- `Statement::is_end_of_fn`: a label whose id, with at most one leading
`.` stripped, starts with `Lfunc_end`. -/
def Statement.is_end_of_fn : Statement → Bool
  | Statement.Label l => fnEndLit.isPrefixOf (dropDot l.id)
  | _ => false

/-- `Statement::is_section_start`. -/
def Statement.is_section_start : Statement → Bool
  | Statement.Directive (Directive.SectionStart _) => true
  | _ => false

/-- `Statement::is_global`. -/
def Statement.is_global : Statement → Bool
  | Statement.Directive (Directive.Generic g) => globlLit.isPrefixOf g.text
  | _ => false

/-- Decimal digit to character. -/
def digitChar (n : Nat) : Char :=
  match n with
  | 0 => '0'
  | 1 => '1'
  | 2 => '2'
  | 3 => '3'
  | 4 => '4'
  | 5 => '5'
  | 6 => '6'
  | 7 => '7'
  | 8 => '8'
  | 9 => '9'
  | _ => '0'

/-- Decimal rendering, fuelled so that it is structurally recursive; the
fuel is always sufficient since `n / 10 < n`. -/
def decCharsF : Nat → Nat → List Char
  | 0, _ => []
  | fuel + 1, n =>
    if n < 10 then [digitChar n]
    else decCharsF fuel (n / 10) ++ [digitChar (n % 10)]

/-- Decimal rendering of a natural number, as Rust's `Display` for `u64`:
most significant digit first. -/
def decChars (n : Nat) : List Char := decCharsF (n + 1) n

/-- `impl Display for Loc` (it uses no color and no demangling):
`"\t.loc\t{file} {line} {column}"` plus `" {extra}"` when present. -/
def displayLoc (l : Loc) : List Char :=
  match l.extra with
  | some x =>
    tLoc ++ decChars l.file ++ ' ' :: decChars l.line ++ ' ' :: decChars l.column ++ ' ' :: x
  | none => tLoc ++ decChars l.file ++ ' ' :: decChars l.line ++ ' ' :: decChars l.column

/-- `impl Display for FilePath`: the joined full path, unquoted. -/
def displayFilePath (p : FilePath) : List Char := p.as_full_path

/-- `impl Display for File` (it uses no color and no demangling):
`"\t.file\t{index} {path}"` plus `" {md5}"` when present. -/
def displayFile (f : File) : List Char :=
  tFile ++ decChars f.index ++ ' ' :: displayFilePath f.path
    ++ (match f.md5 with
        | some m => ' ' :: m
        | none => [])

/-- The first character of `r`, when there is one, fails `p`. -/
def headNot (p : Char → Bool) (r : List Char) : Prop :=
  ∀ c, r.head? = some c → p c = false

/-- A non-empty run of decimal digits. -/
def DigitRun (ds : List Char) : Prop :=
  ds ≠ [] ∧ ∀ c ∈ ds, isDigitChar c = true

/-- A non-empty run of spaces and tabs (what `space1` consumes). -/
def SpaceRun (sp : List Char) : Prop :=
  sp ≠ [] ∧ ∀ c ∈ sp, isSpaceChar c = true

/-- A non-empty run of hex digits. -/
def HexRun (h : List Char) : Prop :=
  h ≠ [] ∧ ∀ c ∈ h, isHexChar c = true

/-- A buffer that begins with spaces followed by a complete quoted string:
exactly the inputs on which `File::parse`'s optional second
`tuple((space1, filename))` succeeds. -/
def SpacedQuoted (t : List Char) : Prop :=
  ∃ sp s r2, SpaceRun sp ∧ s ≠ [] ∧ dq ∉ s ∧ t = sp ++ dq :: (s ++ dq :: r2)

/-- A buffer that begins with spaces followed by at least one hex digit:
exactly the inputs on which `File::parse`'s optional
`tuple((space1, hex_digit1))` succeeds. -/
def SpacedHex (t : List Char) : Prop :=
  ∃ sp c r2, SpaceRun sp ∧ isHexChar c = true ∧ t = sp ++ c :: r2

/-- The optional md5 digest of `File::parse`: either spaces then a maximal
non-empty run of hex digits, or nothing recognizable (in which case the
whole tail is left unconsumed). -/
def Md5Tail (t r : List Char) (m : Option (List Char)) : Prop :=
  (∃ sp3 h, SpaceRun sp3 ∧ HexRun h ∧ headNot isHexChar r ∧ t = sp3 ++ (h ++ r) ∧ m = some h)
    ∨ (¬ SpacedHex t ∧ r = t ∧ m = none)

/-- The exact shape of inputs accepted by `File::parse`, together with the
produced `File` and unconsumed rest: the literal `"\t.file\t"`, a decimal
index below `2^64`, spaces, one quoted string, then optionally spaces and
a second quoted string, then optionally spaces and a hex digest. One
quoted string gives `FullPath`, two give `PathAndFileName`. -/
def FileShape (cs r : List Char) (f : File) : Prop :=
  ∃ ds sp1 s1 t1,
    DigitRun ds ∧ SpaceRun sp1 ∧ s1 ≠ [] ∧ dq ∉ s1 ∧
    decVal ds < 2 ^ 64 ∧ f.index = decVal ds ∧
    cs = tFile ++ (ds ++ (sp1 ++ dq :: (s1 ++ dq :: t1))) ∧
    ((∃ sp2 s2 t2, SpaceRun sp2 ∧ s2 ≠ [] ∧ dq ∉ s2 ∧
        t1 = sp2 ++ dq :: (s2 ++ dq :: t2) ∧
        f.path = FilePath.PathAndFileName s1 s2 ∧ Md5Tail t2 r f.md5)
      ∨ (¬ SpacedQuoted t1 ∧ f.path = FilePath.FullPath s1 ∧ Md5Tail t1 r f.md5))

/-- The tails on which `Loc::parse`'s optional
`preceded(tag(" "), take_while1(≠ LF))` fails: anything not starting with
a space, or a space followed by nothing or by an immediate LF. -/
def ExtraFails (t : List Char) : Prop :=
  ∀ e, t = ' ' :: e → (e = [] ∨ e.head? = some '\n')

/-- The exact shape of inputs accepted by `Loc::parse`, together with the
produced `Loc` and unconsumed rest: the literal `"\t.loc\t"`, three
decimal numbers below `2^64` separated by whitespace runs, then optionally
one space and a verbatim non-empty extra span running to the line end. -/
def LocShape (cs r : List Char) (l : Loc) : Prop :=
  ∃ d1 sp1 d2 sp2 d3 t,
    DigitRun d1 ∧ SpaceRun sp1 ∧ DigitRun d2 ∧ SpaceRun sp2 ∧ DigitRun d3 ∧
    decVal d1 < 2 ^ 64 ∧ decVal d2 < 2 ^ 64 ∧ decVal d3 < 2 ^ 64 ∧
    l.file = decVal d1 ∧ l.line = decVal d2 ∧ l.column = decVal d3 ∧
    headNot isDigitChar t ∧
    cs = tLoc ++ (d1 ++ (sp1 ++ (d2 ++ (sp2 ++ (d3 ++ t))))) ∧
    ((∃ e r2, e ≠ [] ∧ '\n' ∉ e ∧ (∀ c, r2.head? = some c → c = '\n') ∧
        t = ' ' :: (e ++ r2) ∧ l.extra = some e ∧ r = r2)
      ∨ (ExtraFails t ∧ l.extra = none ∧ r = t))

theorem pmap_eq_some {α β : Type} {f : α → β} {p : Parser α} {cs r : List Char} {b : β} :
    pmap f p cs = some (r, b) ↔ ∃ a, p cs = some (r, a) ∧ b = f a := by
  unfold pmap
  cases h : p cs with
  | none => simp
  | some v =>
    obtain ⟨m, a⟩ := v
    simp only [Option.some.injEq, Prod.mk.injEq]
    aesop

theorem pmap_eq_none {α β : Type} {f : α → β} {p : Parser α} {cs : List Char} :
    pmap f p cs = none ↔ p cs = none := by
  unfold pmap
  cases h : p cs with
  | none => simp
  | some v => obtain ⟨m, a⟩ := v; simp

theorem pseq_eq_some {α β : Type} {p : Parser α} {q : Parser β} {cs r : List Char}
    {x : α × β} :
    pseq p q cs = some (r, x) ↔ ∃ m, p cs = some (m, x.1) ∧ q m = some (r, x.2) := by
  obtain ⟨xa, xb⟩ := x
  unfold pseq
  cases h : p cs with
  | none => simp
  | some v =>
    obtain ⟨m, a⟩ := v
    cases h2 : q m with
    | none => aesop
    | some w => obtain ⟨r2, b⟩ := w; aesop

theorem palt_eq_some {α : Type} {p q : Parser α} {cs : List Char} {v : List Char × α} :
    palt p q cs = some v ↔ p cs = some v ∨ (p cs = none ∧ q cs = some v) := by
  unfold palt
  cases h : p cs with
  | none => simp
  | some w => simp

theorem palt_eq_none {α : Type} {p q : Parser α} {cs : List Char} :
    palt p q cs = none ↔ p cs = none ∧ q cs = none := by
  unfold palt
  cases h : p cs with
  | none => simp
  | some w => simp

theorem popt_eq_some {α : Type} {p : Parser α} {cs r : List Char} {x : Option α} :
    popt p cs = some (r, x) ↔
      (∃ a, x = some a ∧ p cs = some (r, a)) ∨ (x = none ∧ r = cs ∧ p cs = none) := by
  unfold popt
  cases h : p cs with
  | none => aesop
  | some v => obtain ⟨m, a⟩ := v; aesop

theorem pverify_eq_some {α : Type} {p : Parser α} {f : α → Bool} {cs r : List Char} {a : α} :
    pverify p f cs = some (r, a) ↔ p cs = some (r, a) ∧ f a = true := by
  unfold pverify
  cases h : p cs with
  | none => simp
  | some v =>
    obtain ⟨m, b⟩ := v
    by_cases hb : f b = true <;> aesop

theorem isPrefixOf_iff_append {p s : List Char} :
    p.isPrefixOf s = true ↔ ∃ t, s = p ++ t := by
  induction p generalizing s with
  | nil => simp [List.isPrefixOf]
  | cons c p ih =>
    cases s with
    | nil => simp [List.isPrefixOf]
    | cons d s =>
      simp only [List.isPrefixOf, Bool.and_eq_true, beq_iff_eq, ih, List.cons_append,
        List.cons.injEq]
      constructor
      · rintro ⟨h1, t, h2⟩; exact ⟨t, h1.symm, h2⟩
      · rintro ⟨t, h1, h2⟩; exact ⟨h1.symm, t, h2⟩

theorem tag_eq_some {t cs r x : List Char} :
    tag t cs = some (r, x) ↔ x = t ∧ cs = t ++ r := by
  unfold tag
  by_cases h : t.isPrefixOf cs = true
  · obtain ⟨u, hu⟩ := isPrefixOf_iff_append.mp h
    subst hu
    simp only [h, if_true, Option.some.injEq, Prod.mk.injEq, List.drop_left]
    constructor
    · rintro ⟨h1, h2⟩; exact ⟨h2.symm, by rw [h1]⟩
    · rintro ⟨h1, h2⟩
      exact ⟨List.append_cancel_left h2, h1.symm⟩
  · simp only [Bool.not_eq_true] at h
    simp only [h, Bool.false_eq_true, if_false]
    constructor
    · intro hc; cases hc
    · rintro ⟨h1, h2⟩
      rw [h2] at h
      have : t.isPrefixOf (t ++ r) = true := isPrefixOf_iff_append.mpr ⟨r, rfl⟩
      rw [this] at h
      cases h

theorem span_eq {p : Char → Bool} {t r : List Char}
    (ht : ∀ c ∈ t, p c = true) (hr : headNot p r) :
    (t ++ r).takeWhile p = t ∧ (t ++ r).dropWhile p = r := by
  induction t with
  | nil =>
    simp only [List.nil_append]
    cases r with
    | nil => simp
    | cons c r2 =>
      have hc : p c = false := hr c rfl
      simp [List.takeWhile_cons, List.dropWhile_cons, hc]
  | cons c t ih =>
    have hc : p c = true := ht c (by simp)
    have iht : ∀ x ∈ t, p x = true := fun x hx => ht x (by simp [hx])
    obtain ⟨h1, h2⟩ := ih iht
    simp [List.takeWhile_cons, List.dropWhile_cons, hc, h1, h2]

theorem headNot_dropWhile {p : Char → Bool} (cs : List Char) :
    headNot p (cs.dropWhile p) := by
  intro c hc
  have := List.head?_dropWhile_not p cs
  rw [hc] at this
  simpa using this

theorem takeWhile1_eq_some {p : Char → Bool} {cs r t : List Char} :
    takeWhile1 p cs = some (r, t) ↔
      t ≠ [] ∧ (∀ c ∈ t, p c = true) ∧ headNot p r ∧ cs = t ++ r := by
  unfold takeWhile1
  by_cases he : (cs.takeWhile p).isEmpty = true
  · simp only [he, if_true]
    constructor
    · intro hc; cases hc
    · rintro ⟨ht, hall, hr, hcs⟩
      subst hcs
      rw [(span_eq hall hr).1, List.isEmpty_iff] at he
      exact absurd he ht
  · simp only [Bool.not_eq_true] at he
    simp only [he, Bool.false_eq_true, if_false, Option.some.injEq, Prod.mk.injEq]
    constructor
    · rintro ⟨h1, h2⟩
      subst h1; subst h2
      refine ⟨?_, fun c hc => List.mem_takeWhile_imp hc, headNot_dropWhile cs,
        (List.takeWhile_append_dropWhile p cs).symm⟩
      intro hnil
      rw [hnil] at he
      simp [List.isEmpty_iff] at he
    · rintro ⟨ht, hall, hr, hcs⟩
      subst hcs
      obtain ⟨h1, h2⟩ := span_eq hall hr
      exact ⟨h2, h1⟩

theorem takeWhile1_eq_none {p : Char → Bool} {cs : List Char} :
    takeWhile1 p cs = none ↔ headNot p cs := by
  unfold takeWhile1
  cases cs with
  | nil => simp [headNot]
  | cons c r =>
    by_cases hc : p c = true
    · simp only [List.takeWhile_cons, hc, if_true]
      constructor
      · intro h; simp [List.isEmpty_iff] at h
      · intro h
        have := h c rfl
        rw [hc] at this
        cases this
    · simp only [Bool.not_eq_true] at hc
      simp only [List.takeWhile_cons, hc, Bool.false_eq_true, if_false]
      constructor
      · intro _ d hd
        cases hd
        exact hc
      · intro _
        simp

theorem newline_eq_some {cs r : List Char} {c : Char} :
    newline cs = some (r, c) ↔ c = '\n' ∧ cs = '\n' :: r := by
  unfold newline
  cases cs with
  | nil => simp
  | cons d cs2 =>
    by_cases hd : d = '\n'
    · subst hd; aesop
    · simp only [hd, if_false]
      constructor
      · intro hc; cases hc
      · rintro ⟨h1, h2⟩
        cases h2
        exact absurd rfl hd

theorem parseU64_eq_some {cs r : List Char} {v : Nat} :
    parseU64 cs = some (r, v) ↔
      ∃ ds, DigitRun ds ∧ headNot isDigitChar r ∧ cs = ds ++ r ∧
        v = decVal ds ∧ v < 2 ^ 64 := by
  unfold parseU64
  by_cases he : (cs.takeWhile isDigitChar).isEmpty = true
  · simp only [he, if_true]
    constructor
    · intro hc; cases hc
    · rintro ⟨ds, ⟨hne, hall⟩, hr, hcs, hv, hb⟩
      subst hcs
      rw [(span_eq hall hr).1, List.isEmpty_iff] at he
      exact absurd he hne
  · simp only [Bool.not_eq_true] at he
    by_cases hb : decVal (cs.takeWhile isDigitChar) < 2 ^ 64
    · simp only [he, Bool.false_eq_true, if_false]
      rw [if_pos hb]
      simp only [Option.some.injEq, Prod.mk.injEq]
      constructor
      · rintro ⟨h1, h2⟩
        subst h1
        refine ⟨cs.takeWhile isDigitChar,
          ⟨?_, fun c hc => List.mem_takeWhile_imp hc⟩, headNot_dropWhile cs,
          (List.takeWhile_append_dropWhile isDigitChar cs).symm, h2.symm, by omega⟩
        intro hnil
        rw [hnil] at he
        simp [List.isEmpty_iff] at he
      · rintro ⟨ds, ⟨hne, hall⟩, hr, hcs, hv, _⟩
        subst hcs
        obtain ⟨h1, h2⟩ := span_eq hall hr
        rw [h1, h2]
        exact ⟨rfl, hv.symm⟩
    · simp only [he, Bool.false_eq_true, if_false]
      rw [if_neg hb]
      constructor
      · intro hc; cases hc
      · rintro ⟨ds, ⟨hne, hall⟩, hr, hcs, hv, hlt⟩
        subst hcs
        rw [(span_eq hall hr).1] at hb
        subst hv
        exact absurd hlt hb

/-- A parser only ever consumes a prefix: its rest is a suffix of the
input. Every nom combinator used by the source has this property. -/
def Consumes {α : Type} (p : Parser α) : Prop :=
  ∀ cs r a, p cs = some (r, a) → ∃ u, cs = u ++ r

theorem consumes_pmap {α β : Type} {f : α → β} {p : Parser α} (hp : Consumes p) :
    Consumes (pmap f p) := by
  intro cs r b h
  obtain ⟨a, ha, _⟩ := pmap_eq_some.mp h
  exact hp cs r a ha

theorem consumes_palt {α : Type} {p q : Parser α} (hp : Consumes p) (hq : Consumes q) :
    Consumes (palt p q) := by
  intro cs r a h
  rcases palt_eq_some.mp h with h1 | ⟨_, h2⟩
  · exact hp cs r a h1
  · exact hq cs r a h2

theorem consumes_pseq {α β : Type} {p : Parser α} {q : Parser β}
    (hp : Consumes p) (hq : Consumes q) : Consumes (pseq p q) := by
  intro cs r x h
  obtain ⟨m, h1, h2⟩ := pseq_eq_some.mp h
  obtain ⟨u1, hu1⟩ := hp cs m x.1 h1
  obtain ⟨u2, hu2⟩ := hq m r x.2 h2
  exact ⟨u1 ++ u2, by rw [hu1, hu2, List.append_assoc]⟩

theorem consumes_popt {α : Type} {p : Parser α} (hp : Consumes p) :
    Consumes (popt p) := by
  intro cs r x h
  rcases popt_eq_some.mp h with ⟨a, _, ha⟩ | ⟨_, hr, _⟩
  · exact hp cs r a ha
  · exact ⟨[], by rw [hr, List.nil_append]⟩

theorem consumes_pverify {α : Type} {p : Parser α} {f : α → Bool} (hp : Consumes p) :
    Consumes (pverify p f) := by
  intro cs r a h
  exact hp cs r a (pverify_eq_some.mp h).1

theorem consumes_precognize {α : Type} {p : Parser α} (hp : Consumes p) :
    Consumes (precognize p) := by
  intro cs r t h
  unfold precognize at h
  cases h2 : p cs with
  | none => rw [h2] at h; cases h
  | some v =>
    obtain ⟨m, a⟩ := v
    rw [h2] at h
    simp only [Option.some.injEq, Prod.mk.injEq] at h
    obtain ⟨h3, _⟩ := h
    exact h3 ▸ hp cs m a h2

theorem consumes_preceded {α β : Type} {p : Parser α} {q : Parser β}
    (hp : Consumes p) (hq : Consumes q) : Consumes (preceded p q) :=
  consumes_pmap (consumes_pseq hp hq)

theorem consumes_terminated {α β : Type} {p : Parser α} {q : Parser β}
    (hp : Consumes p) (hq : Consumes q) : Consumes (terminated p q) :=
  consumes_pmap (consumes_pseq hp hq)

theorem consumes_delimited {α β γ : Type} {p : Parser α} {q : Parser β} {w : Parser γ}
    (hp : Consumes p) (hq : Consumes q) (hw : Consumes w) :
    Consumes (delimited p q w) :=
  consumes_pmap (consumes_pseq (consumes_pseq hp hq) hw)

theorem consumes_tag {t : List Char} : Consumes (tag t) := by
  intro cs r x h
  obtain ⟨_, h2⟩ := tag_eq_some.mp h
  exact ⟨t, h2⟩

theorem consumes_takeWhile1 {p : Char → Bool} : Consumes (takeWhile1 p) := by
  intro cs r t h
  obtain ⟨_, _, _, h4⟩ := takeWhile1_eq_some.mp h
  exact ⟨t, h4⟩

theorem consumes_takeWhileMN {m n : Nat} {p : Char → Bool} :
    Consumes (takeWhileMN m n p) := by
  intro cs r t h
  unfold takeWhileMN at h
  by_cases hc : ((cs.takeWhile p).take n).length < m
  · rw [if_pos hc] at h; cases h
  · rw [if_neg hc] at h
    simp only [Option.some.injEq, Prod.mk.injEq] at h
    obtain ⟨h1, _⟩ := h
    subst h1
    exact ⟨cs.take ((cs.takeWhile p).take n).length, (List.take_append_drop _ cs).symm⟩

theorem consumes_parseU64 : Consumes parseU64 := by
  intro cs r v h
  obtain ⟨ds, _, _, h3, _, _⟩ := parseU64_eq_some.mp h
  exact ⟨ds, h3⟩

theorem consumes_notLineEnding : Consumes notLineEnding := by
  intro cs r t h
  unfold notLineEnding at h
  split at h
  · simp only [Option.some.injEq, Prod.mk.injEq] at h
    obtain ⟨h1, _⟩ := h
    exact ⟨cs, by rw [← h1, List.append_nil]⟩
  · rename_i c r2 hd
    split at h
    · simp only [Option.some.injEq, Prod.mk.injEq] at h
      obtain ⟨h1, _⟩ := h
      exact ⟨cs.takeWhile notCRLF, by rw [← h1, ← hd, List.takeWhile_append_dropWhile]⟩
    · split at h
      · simp only [Option.some.injEq, Prod.mk.injEq] at h
        obtain ⟨h1, _⟩ := h
        exact ⟨cs.takeWhile notCRLF, by rw [← h1, ← hd, List.takeWhile_append_dropWhile]⟩
      · cases h

theorem consumes_newline : Consumes newline := by
  intro cs r c h
  obtain ⟨_, h2⟩ := newline_eq_some.mp h
  exact ⟨['\n'], h2⟩

theorem consumes_space1 : Consumes space1 := consumes_takeWhile1

theorem consumes_labelParse : Consumes Label.parse :=
  consumes_palt
    (consumes_pmap (consumes_terminated consumes_takeWhile1 consumes_tag))
    (consumes_pmap (consumes_delimited consumes_tag consumes_takeWhile1 consumes_tag))

theorem consumes_instrParse : Consumes Instruction.parse :=
  consumes_preceded consumes_tag
    (consumes_palt
      (consumes_pmap (consumes_pseq consumes_takeWhile1
        (consumes_popt (consumes_preceded consumes_space1 consumes_notLineEnding))))
      (consumes_pmap (consumes_precognize
        (consumes_pseq consumes_takeWhileMN consumes_notLineEnding))))

theorem consumes_locParse : Consumes Loc.parse :=
  consumes_pmap
    (consumes_pseq
      (consumes_pseq
        (consumes_pseq
          (consumes_pseq (consumes_pseq (consumes_pseq consumes_tag consumes_parseU64)
            consumes_space1) consumes_parseU64)
          consumes_space1)
        consumes_parseU64)
      (consumes_popt (consumes_preceded consumes_tag consumes_takeWhile1)))

theorem consumes_fileParse : Consumes File.parse :=
  consumes_pmap
    (consumes_pseq
      (consumes_pseq
        (consumes_pseq (consumes_pseq (consumes_pseq consumes_tag consumes_parseU64)
          consumes_space1)
          (consumes_delimited consumes_tag consumes_takeWhile1 consumes_tag))
        (consumes_popt (consumes_pseq consumes_space1
          (consumes_delimited consumes_tag consumes_takeWhile1 consumes_tag))))
      (consumes_popt (consumes_pseq consumes_space1 consumes_takeWhile1)))

theorem consumes_labelStmt : Consumes labelStmt := consumes_pmap consumes_labelParse

theorem consumes_dirStmt : Consumes dirStmt :=
  consumes_pmap
    (consumes_palt (consumes_pmap consumes_fileParse)
      (consumes_palt (consumes_pmap consumes_locParse)
        (consumes_palt (consumes_pmap (consumes_preceded consumes_tag consumes_takeWhile1))
          (consumes_palt (consumes_pmap consumes_tag)
            (consumes_palt
              (consumes_pmap (consumes_preceded consumes_tag consumes_takeWhile1))
              (consumes_pmap (consumes_preceded consumes_tag consumes_takeWhile1)))))))

theorem consumes_instrStmt : Consumes instrStmt := consumes_pmap consumes_instrParse

theorem consumes_nothingStmt : Consumes nothingStmt :=
  consumes_pmap (consumes_pverify consumes_notLineEnding)

theorem consumes_dunnoStmt : Consumes dunnoStmt := consumes_pmap consumes_takeWhile1

theorem terminated_newline_eq_some {α : Type} {p : Parser α} {cs r : List Char} {a : α} :
    terminated p newline cs = some (r, a) ↔ p cs = some ('\n' :: r, a) := by
  unfold terminated
  rw [pmap_eq_some]
  constructor
  · rintro ⟨x, hx, hfst⟩
    obtain ⟨m, h1, h2⟩ := pseq_eq_some.mp hx
    obtain ⟨_, hm⟩ := newline_eq_some.mp h2
    subst hm
    subst hfst
    exact h1
  · intro h
    exact ⟨(a, '\n'), pseq_eq_some.mpr ⟨'\n' :: r, h, newline_eq_some.mpr ⟨rfl, rfl⟩⟩, rfl⟩

theorem terminated_newline_eq_none {α : Type} {p : Parser α} (hp : Consumes p)
    {cs : List Char} (h : '\n' ∉ cs) : terminated p newline cs = none := by
  cases ht : terminated p newline cs with
  | none => rfl
  | some v =>
    obtain ⟨r, a⟩ := v
    have hps := terminated_newline_eq_some.mp ht
    obtain ⟨u, hu⟩ := hp cs ('\n' :: r) a hps
    exact absurd (by rw [hu]; exact List.mem_append_right u (by simp)) h

theorem pseq_eq_none_left {α β : Type} {p : Parser α} {q : Parser β} {cs : List Char}
    (h : p cs = none) : pseq p q cs = none := by
  unfold pseq
  rw [h]

theorem takeWhile1_cons_none {p : Char → Bool} {c : Char} {r : List Char}
    (h : p c = false) : takeWhile1 p (c :: r) = none := by
  refine takeWhile1_eq_none.mpr ?_
  intro d hd
  simp only [List.head?_cons, Option.some.injEq] at hd
  exact hd ▸ h

theorem tag_cons_none {t0 c : Char} {ts r : List Char} (h : t0 ≠ c) :
    tag (t0 :: ts) (c :: r) = none := by
  cases ht : tag (t0 :: ts) (c :: r) with
  | none => rfl
  | some v =>
    obtain ⟨m, x⟩ := v
    obtain ⟨_, h2⟩ := tag_eq_some.mp ht
    rw [List.cons_append] at h2
    exact absurd (List.head_eq_of_cons_eq h2) (fun hh => h hh.symm)

theorem terminated_none_left {α β : Type} {p : Parser α} {q : Parser β} {cs : List Char}
    (h : p cs = none) : terminated p q cs = none :=
  pmap_eq_none.mpr (pseq_eq_none_left h)

theorem labelParse_none_head {c : Char} {r : List Char}
    (h1 : good_for_label c = false) (h2 : c ≠ dq) : Label.parse (c :: r) = none := by
  unfold Label.parse
  refine palt_eq_none.mpr ⟨?_, ?_⟩
  · exact pmap_eq_none.mpr (terminated_none_left (takeWhile1_cons_none h1))
  · refine pmap_eq_none.mpr ?_
    unfold delimited
    exact pmap_eq_none.mpr
      (pseq_eq_none_left (pseq_eq_none_left (tag_cons_none (Ne.symm h2))))

theorem fileParse_none_head {c : Char} {r : List Char} (h : c ≠ '\t') :
    File.parse (c :: r) = none :=
  pmap_eq_none.mpr (pseq_eq_none_left (pseq_eq_none_left (pseq_eq_none_left
    (pseq_eq_none_left (pseq_eq_none_left (tag_cons_none (Ne.symm h)))))))

theorem locParse_none_head {c : Char} {r : List Char} (h : c ≠ '\t') :
    Loc.parse (c :: r) = none :=
  pmap_eq_none.mpr (pseq_eq_none_left (pseq_eq_none_left (pseq_eq_none_left
    (pseq_eq_none_left (pseq_eq_none_left (pseq_eq_none_left
      (tag_cons_none (Ne.symm h))))))))

theorem dirStmt_none_head {c : Char} {r : List Char} (ht : c ≠ '\t') (hd : c ≠ '.') :
    dirStmt (c :: r) = none := by
  unfold dirStmt fileDir locDir setDir ssvsDir sectionDir genericDir
  refine pmap_eq_none.mpr (palt_eq_none.mpr ⟨pmap_eq_none.mpr (fileParse_none_head ht),
    palt_eq_none.mpr ⟨pmap_eq_none.mpr (locParse_none_head ht),
      palt_eq_none.mpr ⟨?_, palt_eq_none.mpr ⟨?_, palt_eq_none.mpr ⟨?_, ?_⟩⟩⟩⟩⟩)
  · exact pmap_eq_none.mpr
      (pmap_eq_none.mpr (pseq_eq_none_left (tag_cons_none (Ne.symm hd))))
  · exact pmap_eq_none.mpr (tag_cons_none (Ne.symm hd))
  · exact pmap_eq_none.mpr
      (pmap_eq_none.mpr (pseq_eq_none_left (tag_cons_none (Ne.symm ht))))
  · exact pmap_eq_none.mpr
      (pmap_eq_none.mpr (pseq_eq_none_left (tag_cons_none (Ne.symm ht))))

theorem instrStmt_none_head {c : Char} {r : List Char} (h : c ≠ '\t') :
    instrStmt (c :: r) = none := by
  unfold instrStmt Instruction.parse
  exact pmap_eq_none.mpr
    (pmap_eq_none.mpr (pseq_eq_none_left (tag_cons_none (Ne.symm h))))

theorem labelStmt_none_head {c : Char} {r : List Char}
    (h1 : good_for_label c = false) (h2 : c ≠ dq) : labelStmt (c :: r) = none :=
  pmap_eq_none.mpr (labelParse_none_head h1 h2)

theorem notLineEnding_cons_nl (r : List Char) :
    notLineEnding ('\n' :: r) = some ('\n' :: r, []) := by
  unfold notLineEnding
  have h1 : List.dropWhile notCRLF ('\n' :: r) = '\n' :: r := by
    rw [List.dropWhile_cons]
    simp [notCRLF]
  have h2 : List.takeWhile notCRLF ('\n' :: r) = [] := by
    rw [List.takeWhile_cons]
    simp [notCRLF]
  rw [h1, h2]
  simp

theorem nothingStmt_cons_nl (r : List Char) :
    nothingStmt ('\n' :: r) = some ('\n' :: r, Statement.Nothing) :=
  pmap_eq_some.mpr ⟨[], pverify_eq_some.mpr ⟨notLineEnding_cons_nl r, rfl⟩, rfl⟩

theorem parse_statement_cons_nl (r : List Char) :
    parse_statement ('\n' :: r) = some (r, Statement.Nothing) := by
  unfold parse_statement
  have hlab : terminated labelStmt newline ('\n' :: r) = none :=
    terminated_none_left (labelStmt_none_head (by decide) (by decide))
  have hdir : terminated dirStmt newline ('\n' :: r) = none :=
    terminated_none_left (dirStmt_none_head (by decide) (by decide))
  have hins : terminated instrStmt newline ('\n' :: r) = none :=
    terminated_none_left (instrStmt_none_head (by decide))
  have hnothing : terminated nothingStmt newline ('\n' :: r) = some (r, Statement.Nothing) :=
    terminated_newline_eq_some.mpr (nothingStmt_cons_nl r)
  exact palt_eq_some.mpr (Or.inr ⟨hlab,
    palt_eq_some.mpr (Or.inr ⟨hdir,
      palt_eq_some.mpr (Or.inr ⟨hins, palt_eq_some.mpr (Or.inl hnothing)⟩)⟩)⟩)

theorem palt_isSome {α : Type} {p q : Parser α} {cs : List Char}
    (h : (q cs).isSome = true) : (palt p q cs).isSome = true := by
  unfold palt
  cases hp : p cs with
  | none => exact h
  | some v => rfl

theorem dunno_line (l r : List Char) (hl : l ≠ []) (hnl : '\n' ∉ l) :
    terminated dunnoStmt newline (l ++ '\n' :: r) = some (r, Statement.Dunno l) := by
  refine terminated_newline_eq_some.mpr (pmap_eq_some.mpr ⟨l, takeWhile1_eq_some.mpr
    ⟨hl, ?_, ?_, rfl⟩, rfl⟩)
  · intro c hc
    exact bne_iff_ne.mpr (fun hh => hnl (hh ▸ hc))
  · intro c hc
    simp only [List.head?_cons, Option.some.injEq] at hc
    rw [← hc]
    simp

/-- C1: a line-terminated input with a non-empty first line always
produces some statement, and an input whose first line is empty before the
terminator produces `Statement.Nothing`. -/
theorem c1_dispatcher_total :
    (∀ l r : List Char, l ≠ [] → '\n' ∉ l →
      (parse_statement (l ++ '\n' :: r)).isSome = true)
    ∧ (∀ r : List Char, parse_statement ('\n' :: r) = some (r, Statement.Nothing)) := by
  constructor
  · intro l r hl hnl
    unfold parse_statement
    refine palt_isSome (palt_isSome (palt_isSome (palt_isSome ?_)))
    rw [dunno_line l r hl hnl]
    rfl
  · exact parse_statement_cons_nl

/-- Witness for C1 at the concrete inputs `"x\n"` and `"\nrest"`. -/
theorem c1_witness :
    (parse_statement ("x\n".toList)).isSome = true
      ∧ parse_statement ('\n' :: "rest".toList) = some ("rest".toList, Statement.Nothing) :=
  ⟨c1_dispatcher_total.1 ['x'] [] (by decide) (by decide),
    c1_dispatcher_total.2 "rest".toList⟩

/-- C10: an input containing no newline is rejected by `parse_statement`
even when its content would match a sub-grammar with a newline appended:
every successful parse consumes a terminating newline. -/
theorem c10_requires_newline :
    ∀ cs : List Char, '\n' ∉ cs → parse_statement cs = none := by
  intro cs h
  unfold parse_statement
  refine palt_eq_none.mpr ⟨terminated_newline_eq_none consumes_labelStmt h,
    palt_eq_none.mpr ⟨terminated_newline_eq_none consumes_dirStmt h,
      palt_eq_none.mpr ⟨terminated_newline_eq_none consumes_instrStmt h,
        palt_eq_none.mpr ⟨terminated_newline_eq_none consumes_nothingStmt h,
          terminated_newline_eq_none consumes_dunnoStmt h⟩⟩⟩⟩

/-- Witness for C10 at the concrete input `"\tret"` (no newline): an
instruction-shaped buffer is still rejected. -/
theorem c10_witness : parse_statement ("\tret".toList) = none :=
  c10_requires_newline ("\tret".toList) (by decide)

/-- C4: equality on `Loc` compares only `file` and `line`, ignoring
`column` and `extra`, including on the spec's two example pairs. -/
theorem c4_loc_equality :
    (∀ a b : Loc, locEq a b = true ↔ (a.file = b.file ∧ a.line = b.line))
    ∧ locEq (Loc.mk 1 2 3 none) (Loc.mk 1 2 99 (some ['x'])) = true
    ∧ locEq (Loc.mk 1 2 3 none) (Loc.mk 1 3 3 none) = false := by
  refine ⟨fun a b => ?_, by decide, by decide⟩
  unfold locEq
  simp [Bool.and_eq_true]

/-- Witness for C4 at a concrete pair differing only in `column`. -/
theorem c4_witness : locEq (Loc.mk 5 6 7 none) (Loc.mk 5 6 8 none) = true :=
  (c4_loc_equality.1 (Loc.mk 5 6 7 none) (Loc.mk 5 6 8 none)).mpr ⟨rfl, rfl⟩

/-- C6: `as_full_path` joins `PathAndFileName` and returns `FullPath`
unchanged; the spec's md5 example parses to `PathAndFileName` with md5 set
and joins to the expected full path. -/
theorem c6_as_full_path :
    (∀ p n : List Char,
      FilePath.as_full_path (FilePath.PathAndFileName p n) = pathJoin p n)
    ∧ (∀ p : List Char, FilePath.as_full_path (FilePath.FullPath p) = p)
    ∧ File.parse
        ("\t.file\t9 \"/home/ubuntu/buf-test\" \"src/main.rs\" 74ab618651b843a815bf806bd6c50c19".toList)
        = some ([], File.mk 9
            (FilePath.PathAndFileName "/home/ubuntu/buf-test".toList "src/main.rs".toList)
            (some "74ab618651b843a815bf806bd6c50c19".toList))
    ∧ FilePath.as_full_path
        (FilePath.PathAndFileName "/home/ubuntu/buf-test".toList "src/main.rs".toList)
        = "/home/ubuntu/buf-test/src/main.rs".toList :=
  ⟨fun _ _ => rfl, fun _ => rfl, by decide, by decide⟩

/-- Witness for C6 at a concrete `PathAndFileName`. -/
theorem c6_witness :
    FilePath.as_full_path (FilePath.PathAndFileName ['a'] ['b']) = pathJoin ['a'] ['b'] :=
  c6_as_full_path.1 ['a'] ['b']

theorem dropDot_cons_ne {c : Char} {r : List Char} (h : c ≠ '.') :
    dropDot (c :: r) = c :: r := by
  show (if c = '.' then r else c :: r) = c :: r
  exact if_neg h

theorem dropDot_cons_dot (r : List Char) : dropDot ('.' :: r) = r := by
  show (if ('.' : Char) = '.' then r else '.' :: r) = r
  exact if_pos rfl

/-- C8: `is_end_of_fn` holds exactly on labels whose id, after one
optional leading dot, starts with `Lfunc_end`; concretely it accepts the
labels parsed from `"Lfunc_end3:"` and `".Lfunc_end3:"` and rejects the
one parsed from `"foo:"`. -/
theorem c8_is_end_of_fn :
    (∀ s : Statement, s.is_end_of_fn = true ↔
      ∃ lab : Label, s = Statement.Label lab ∧
        ∃ t, (lab.id = fnEndLit ++ t ∨ lab.id = '.' :: (fnEndLit ++ t)))
    ∧ (∃ lab1 : Label, Label.parse ("Lfunc_end3:".toList) = some ([], lab1)
        ∧ (Statement.Label lab1).is_end_of_fn = true)
    ∧ (∃ lab2 : Label, Label.parse (".Lfunc_end3:".toList) = some ([], lab2)
        ∧ (Statement.Label lab2).is_end_of_fn = true)
    ∧ (∃ lab3 : Label, Label.parse ("foo:".toList) = some ([], lab3)
        ∧ (Statement.Label lab3).is_end_of_fn = false) := by
  refine ⟨fun s => ?_,
    ⟨Label.mk "Lfunc_end3".toList LabelKind.Unknown, by decide, by decide⟩,
    ⟨Label.mk ".Lfunc_end3".toList LabelKind.Unknown, by decide, by decide⟩,
    ⟨Label.mk "foo".toList LabelKind.Unknown, by decide, by decide⟩⟩
  cases s with
  | Label lab =>
    obtain ⟨id, kind⟩ := lab
    have hred : (Statement.Label (Label.mk id kind)).is_end_of_fn
        = fnEndLit.isPrefixOf (dropDot id) := rfl
    rw [hred, isPrefixOf_iff_append]
    constructor
    · rintro ⟨t, ht⟩
      cases id with
      | nil =>
        rw [show dropDot [] = [] from rfl] at ht
        rw [show fnEndLit = 'L' :: ['f', 'u', 'n', 'c', '_', 'e', 'n', 'd'] from rfl] at ht
        cases ht
      | cons c rest =>
        by_cases hc : c = '.'
        · subst hc
          rw [dropDot_cons_dot] at ht
          exact ⟨Label.mk ('.' :: rest) kind, rfl, t, Or.inr (by rw [ht])⟩
        · rw [dropDot_cons_ne hc] at ht
          exact ⟨Label.mk (c :: rest) kind, rfl, t, Or.inl ht⟩
    · rintro ⟨lab, hlab, t, ht | ht⟩
      · injection hlab with h
        subst h
        refine ⟨t, ?_⟩
        rw [show (Label.mk id kind).id = id from rfl] at ht
        rw [ht]
        rw [show fnEndLit = 'L' :: ['f', 'u', 'n', 'c', '_', 'e', 'n', 'd'] from rfl,
          List.cons_append, dropDot_cons_ne (by decide)]
      · injection hlab with h
        subst h
        refine ⟨t, ?_⟩
        rw [show (Label.mk id kind).id = id from rfl] at ht
        rw [ht, dropDot_cons_dot]
  | Directive d =>
    simp [Statement.is_end_of_fn]
  | Instruction i =>
    simp [Statement.is_end_of_fn]
  | Nothing =>
    simp [Statement.is_end_of_fn]
  | Dunno t =>
    simp [Statement.is_end_of_fn]

/-- Witness for C8: the iff applied at a concrete end-of-function label. -/
theorem c8_witness :
    (Statement.Label (Label.mk ('L' :: ['f', 'u', 'n', 'c', '_', 'e', 'n', 'd'])
      LabelKind.Unknown)).is_end_of_fn = true :=
  (c8_is_end_of_fn.1 _).mpr
    ⟨Label.mk ('L' :: ['f', 'u', 'n', 'c', '_', 'e', 'n', 'd']) LabelKind.Unknown, rfl,
      [], Or.inl (by decide)⟩

/-- Counterexample to C3: on `"foo: bar\n"` the label sub-grammar matches
the proper prefix `"foo:"`, yet the dispatcher does not return that label
with the trailing `" bar"` discarded — it rejects the label alternative
(its `terminated` newline fails) and returns the catch-all
`Dunno "foo: bar"` instead. -/
theorem c3_counterexample :
    (∃ k, Label.parse ("foo: bar\n".toList)
        = some (" bar\n".toList, Label.mk "foo".toList k))
    ∧ parse_statement ("foo: bar\n".toList) = some ([], Statement.Dunno ("foo: bar".toList))
    ∧ (match parse_statement ("foo: bar\n".toList) with
       | some (_, Statement.Label _) => False
       | _ => True) :=
  ⟨⟨LabelKind.Unknown, by decide⟩, by decide, trivial⟩

/-- C3 amended: when a sub-grammar matches only a proper prefix of the
line (the rest does not begin with the newline), the dispatcher discards
that alternative rather than its trailing text; shown here for the label
sub-grammar: the dispatcher then never returns a label statement for that
input. -/
theorem c3_amended_discard :
    ∀ (cs rest : List Char) (lab : Label), Label.parse cs = some (rest, lab) →
      rest.head? ≠ some '\n' →
      ∀ (r : List Char) (s : Statement), parse_statement cs = some (r, s) →
        ∀ lab2 : Label, s ≠ Statement.Label lab2 := by
  intro cs rest lab hl hr r s hp lab2 hs
  subst hs
  unfold parse_statement at hp
  rcases palt_eq_some.mp hp with h1 | ⟨_, h2⟩
  · have hlb := terminated_newline_eq_some.mp h1
    obtain ⟨a, ha, _⟩ := pmap_eq_some.mp hlb
    rw [hl] at ha
    simp only [Option.some.injEq, Prod.mk.injEq] at ha
    obtain ⟨h3, _⟩ := ha
    exact hr (by rw [h3]; rfl)
  · rcases palt_eq_some.mp h2 with h3 | ⟨_, h4⟩
    · obtain ⟨d, _, hval⟩ := pmap_eq_some.mp (terminated_newline_eq_some.mp h3)
      cases hval
    · rcases palt_eq_some.mp h4 with h5 | ⟨_, h6⟩
      · obtain ⟨i, _, hval⟩ := pmap_eq_some.mp (terminated_newline_eq_some.mp h5)
        cases hval
      · rcases palt_eq_some.mp h6 with h7 | ⟨_, h8⟩
        · obtain ⟨x, _, hval⟩ := pmap_eq_some.mp (terminated_newline_eq_some.mp h7)
          cases hval
        · obtain ⟨t, _, hval⟩ := pmap_eq_some.mp (terminated_newline_eq_some.mp h8)
          cases hval

/-- Witness for the amended C3 at the concrete input `"foo:x\n"`. -/
theorem c3_amended_witness :
    Statement.Dunno ("foo:x".toList) ≠ Statement.Label (Label.mk "foo".toList LabelKind.Unknown) :=
  c3_amended_discard ("foo:x\n".toList) ("x\n".toList)
    (Label.mk "foo".toList LabelKind.Unknown) (by decide) (by decide)
    [] (Statement.Dunno ("foo:x".toList)) (by decide)
    (Label.mk "foo".toList LabelKind.Unknown)

/-- C2: the dispatcher's alternatives follow the source priority order; in
particular a well-formed `.file` line parses as `Directive.File` (never
`Generic`), both at the spec's concrete example and in general: whenever
`File::parse` accepts the whole line, `parse_statement` returns its
result. -/
theorem c2_priority :
    parse_statement ("\t.file\t9 \"/a/b\"\n".toList)
      = some ([], Statement.Directive (Directive.File
          (File.mk 9 (FilePath.FullPath "/a/b".toList) none)))
    ∧ (∀ (cs r : List Char) (f : File), File.parse cs = some ('\n' :: r, f) →
        parse_statement cs = some (r, Statement.Directive (Directive.File f))) := by
  refine ⟨by decide, fun cs r f hf => ?_⟩
  have hcs : ∃ u, cs = tFile ++ u := by
    obtain ⟨x, hx, _⟩ := pmap_eq_some.mp hf
    obtain ⟨m1, h1, _⟩ := pseq_eq_some.mp hx
    obtain ⟨m2, h2, _⟩ := pseq_eq_some.mp h1
    obtain ⟨m3, h3, _⟩ := pseq_eq_some.mp h2
    obtain ⟨m4, h4, _⟩ := pseq_eq_some.mp h3
    obtain ⟨m5, h5, _⟩ := pseq_eq_some.mp h4
    obtain ⟨_, h6⟩ := tag_eq_some.mp h5
    exact ⟨m5, h6⟩
  obtain ⟨u, hu⟩ := hcs
  have hlab : terminated labelStmt newline cs = none := by
    rw [hu]
    rw [show tFile ++ u = '\t' :: (['.', 'f', 'i', 'l', 'e', '\t'] ++ u) from rfl]
    exact terminated_none_left (labelStmt_none_head (by decide) (by decide))
  have hdir : terminated dirStmt newline cs
      = some (r, Statement.Directive (Directive.File f)) := by
    refine terminated_newline_eq_some.mpr ?_
    unfold dirStmt
    refine pmap_eq_some.mpr ⟨Directive.File f, ?_, rfl⟩
    refine palt_eq_some.mpr (Or.inl ?_)
    exact pmap_eq_some.mpr ⟨f, hf, rfl⟩
  unfold parse_statement
  exact palt_eq_some.mpr (Or.inr ⟨hlab, palt_eq_some.mpr (Or.inl hdir)⟩)

/-- Witness for C2's general part at a concrete `.file` line. -/
theorem c2_witness :
    parse_statement ("\t.file\t1 \"q\"\n".toList)
      = some ([], Statement.Directive (Directive.File
          (File.mk 1 (FilePath.FullPath ['q']) none))) :=
  c2_priority.2 ("\t.file\t1 \"q\"\n".toList) []
    (File.mk 1 (FilePath.FullPath ['q']) none) (by decide)

theorem pseq_eq_none {α β : Type} {p : Parser α} {q : Parser β} {cs : List Char} :
    pseq p q cs = none ↔
      p cs = none ∨ ∃ m a, p cs = some (m, a) ∧ q m = none := by
  unfold pseq
  cases h : p cs with
  | none => simp
  | some v =>
    obtain ⟨m, a⟩ := v
    cases h2 : q m with
    | none => aesop
    | some w => obtain ⟨r, b⟩ := w; aesop

theorem space_not_digit {c : Char} (h : isSpaceChar c = true) : isDigitChar c = false := by
  simp only [isSpaceChar, Bool.or_eq_true, beq_iff_eq] at h
  rcases h with h | h <;> (subst h; decide)

theorem digit_not_space {c : Char} (h : isDigitChar c = true) : isSpaceChar c = false := by
  cases hsp : isSpaceChar c with
  | false => rfl
  | true =>
    simp only [isSpaceChar, Bool.or_eq_true, beq_iff_eq] at hsp
    rcases hsp with h1 | h1 <;> (subst h1; exact absurd h (by decide))

theorem hex_not_space {c : Char} (h : isHexChar c = true) : isSpaceChar c = false := by
  cases hsp : isSpaceChar c with
  | false => rfl
  | true =>
    simp only [isSpaceChar, Bool.or_eq_true, beq_iff_eq] at hsp
    rcases hsp with h1 | h1 <;> (subst h1; exact absurd h (by decide))

theorem headNot_of_run {p q : Char → Bool} {a b : List Char} (ha : a ≠ [])
    (hall : ∀ c ∈ a, q c = true) (hdisj : ∀ c, q c = true → p c = false) :
    headNot p (a ++ b) := by
  intro c hc
  cases a with
  | nil => exact absurd rfl ha
  | cons d a2 =>
    simp only [List.cons_append, List.head?_cons, Option.some.injEq] at hc
    exact hc ▸ hdisj d (hall d (by simp))

theorem extraInner_eq_some {t r e : List Char} :
    preceded (tag [' ']) (takeWhile1 (fun c => c != '\n')) t = some (r, e) ↔
      e ≠ [] ∧ '\n' ∉ e ∧ (∀ c, r.head? = some c → c = '\n') ∧ t = ' ' :: (e ++ r) := by
  unfold preceded
  rw [pmap_eq_some]
  constructor
  · rintro ⟨x, hx, hsnd⟩
    obtain ⟨m, htag, htw⟩ := pseq_eq_some.mp hx
    obtain ⟨_, ht⟩ := tag_eq_some.mp htag
    obtain ⟨hne, hall, hhn, hm⟩ := takeWhile1_eq_some.mp htw
    subst hsnd
    refine ⟨hne, ?_, ?_, ?_⟩
    · intro hmem
      have := hall '\n' hmem
      simp at this
    · intro c hc
      have := hhn c hc
      simpa using this
    · rw [ht, hm]
      rfl
  · rintro ⟨hne, hnl, hr, ht⟩
    subst ht
    refine ⟨([' '], e), ?_, rfl⟩
    refine pseq_eq_some.mpr ⟨e ++ r, tag_eq_some.mpr ⟨rfl, rfl⟩, ?_⟩
    refine takeWhile1_eq_some.mpr ⟨hne, ?_, ?_, rfl⟩
    · intro c hc
      exact bne_iff_ne.mpr (fun hh => hnl (hh ▸ hc))
    · intro c hc
      rw [hr c hc]
      simp

theorem extraInner_eq_none {t : List Char} :
    preceded (tag [' ']) (takeWhile1 (fun c => c != '\n')) t = none ↔ ExtraFails t := by
  constructor
  · intro h e he
    subst he
    unfold preceded at h
    rw [pmap_eq_none, pseq_eq_none] at h
    rcases h with h | ⟨m, a, htag, htw⟩
    · have htg : tag [' '] (' ' :: e) = some (e, [' ']) := tag_eq_some.mpr ⟨rfl, rfl⟩
      rw [htg] at h
      cases h
    · obtain ⟨_, hm⟩ := tag_eq_some.mp htag
      simp only [List.cons_append, List.nil_append, List.cons.injEq, true_and] at hm
      cases e with
      | nil => exact Or.inl rfl
      | cons c e2 =>
        by_cases hc : c = '\n'
        · exact Or.inr (by rw [hc]; rfl)
        · exfalso
          rw [← hm] at htw
          have := takeWhile1_eq_none.mp htw c rfl
          exact absurd this (by simp [bne_iff_ne, hc])
  · intro h
    cases t with
    | nil =>
      refine pmap_eq_none.mpr (pseq_eq_none_left ?_)
      rfl
    | cons c t2 =>
      by_cases hc : c = ' '
      · subst hc
        have he := h t2 rfl
        refine pmap_eq_none.mpr (pseq_eq_none.mpr (Or.inr
          ⟨t2, [' '], tag_eq_some.mpr ⟨rfl, rfl⟩, ?_⟩))
        refine takeWhile1_eq_none.mpr ?_
        intro d hd
        rcases he with he | he
        · subst he; cases hd
        · rw [he] at hd
          simp only [Option.some.injEq] at hd
          rw [← hd]
          simp
      · exact pmap_eq_none.mpr (pseq_eq_none_left (tag_cons_none (fun hh => hc hh.symm)))

theorem Loc_parse_iff {cs r : List Char} {l : Loc} :
    Loc.parse cs = some (r, l) ↔ LocShape cs r l := by
  obtain ⟨lf, ll, lc, le⟩ := l
  unfold Loc.parse
  rw [pmap_eq_some]
  constructor
  · rintro ⟨x, hx, hl⟩
    obtain ⟨⟨⟨⟨⟨⟨tg1, file⟩, sp1v⟩, line⟩, sp2v⟩, column⟩, extra⟩ := x
    have hl2 : Loc.mk lf ll lc le = Loc.mk file line column extra := hl
    injection hl2 with h1f h1l h1c h1e
    subst h1f
    subst h1l
    subst h1c
    subst h1e
    obtain ⟨m6, hA, hExtra⟩ := pseq_eq_some.mp hx
    obtain ⟨m5, hB, hu3⟩ := pseq_eq_some.mp hA
    obtain ⟨m4, hC, hsp2⟩ := pseq_eq_some.mp hB
    obtain ⟨m3, hD, hu2⟩ := pseq_eq_some.mp hC
    obtain ⟨m2, hE, hsp1⟩ := pseq_eq_some.mp hD
    obtain ⟨m1, htag, hu1⟩ := pseq_eq_some.mp hE
    obtain ⟨_, hcs⟩ := tag_eq_some.mp htag
    obtain ⟨d1, hd1run, hh2, hm1, hfile, hlt1⟩ := parseU64_eq_some.mp hu1
    obtain ⟨hnesp1, hallsp1, hh3, hm2⟩ := takeWhile1_eq_some.mp hsp1
    obtain ⟨d2, hd2run, hh4, hm3, hline, hlt2⟩ := parseU64_eq_some.mp hu2
    obtain ⟨hnesp2, hallsp2, hh5, hm4⟩ := takeWhile1_eq_some.mp hsp2
    obtain ⟨d3, hd3run, hh6, hm5, hcol, hlt3⟩ := parseU64_eq_some.mp hu3
    refine ⟨d1, sp1v, d2, sp2v, d3, m6, hd1run, ⟨hnesp1, hallsp1⟩, hd2run,
      ⟨hnesp2, hallsp2⟩, hd3run, hfile ▸ hlt1, hline ▸ hlt2, hcol ▸ hlt3,
      hfile, hline, hcol, hh6, ?_, ?_⟩
    · rw [hcs, hm1, hm2, hm3, hm4, hm5]
    · rcases popt_eq_some.mp hExtra with ⟨e, hext, hinner⟩ | ⟨hext, hreq, _⟩
      · obtain ⟨hnee, hnle, hre, hm6⟩ := extraInner_eq_some.mp hinner
        exact Or.inl ⟨e, r, hnee, hnle, hre, hm6, hext, rfl⟩
      · exact Or.inr ⟨extraInner_eq_none.mp (popt_eq_some.mp hExtra
          |>.resolve_left (by rintro ⟨a, ha, _⟩; rw [hext] at ha; cases ha)).2.2,
          hext, hreq⟩
  · rintro ⟨d1, sp1, d2, sp2, d3, t, ⟨hne1, hall1⟩, ⟨hnesp1, hallsp1⟩, ⟨hne2, hall2⟩,
      ⟨hnesp2, hallsp2⟩, ⟨hne3, hall3⟩, hlt1, hlt2, hlt3, hf, hl2, hc2, hhn, hcs, hdisj⟩
    have hf2 : lf = decVal d1 := hf
    have hl3 : ll = decVal d2 := hl2
    have hc3 : lc = decVal d3 := hc2
    subst hf2
    subst hl3
    subst hc3
    subst hcs
    refine ⟨((((((tLoc, decVal d1), sp1), decVal d2), sp2), decVal d3), le), ?_, rfl⟩
    refine pseq_eq_some.mpr ⟨t, ?_, ?_⟩
    · refine pseq_eq_some.mpr ⟨d3 ++ t, ?_, ?_⟩
      · refine pseq_eq_some.mpr ⟨sp2 ++ (d3 ++ t), ?_, ?_⟩
        · refine pseq_eq_some.mpr ⟨d2 ++ (sp2 ++ (d3 ++ t)), ?_, ?_⟩
          · refine pseq_eq_some.mpr ⟨sp1 ++ (d2 ++ (sp2 ++ (d3 ++ t))), ?_, ?_⟩
            · refine pseq_eq_some.mpr ⟨d1 ++ (sp1 ++ (d2 ++ (sp2 ++ (d3 ++ t)))),
                tag_eq_some.mpr ⟨rfl, rfl⟩, ?_⟩
              exact parseU64_eq_some.mpr ⟨d1, ⟨hne1, hall1⟩,
                headNot_of_run hnesp1 hallsp1 (fun c h => space_not_digit h), rfl, rfl, hlt1⟩
            · exact takeWhile1_eq_some.mpr ⟨hnesp1, hallsp1,
                headNot_of_run hne2 hall2 (fun c h => digit_not_space h), rfl⟩
          · exact parseU64_eq_some.mpr ⟨d2, ⟨hne2, hall2⟩,
              headNot_of_run hnesp2 hallsp2 (fun c h => space_not_digit h), rfl, rfl, hlt2⟩
        · exact takeWhile1_eq_some.mpr ⟨hnesp2, hallsp2,
            headNot_of_run hne3 hall3 (fun c h => digit_not_space h), rfl⟩
      · exact parseU64_eq_some.mpr ⟨d3, ⟨hne3, hall3⟩, hhn, rfl, rfl, hlt3⟩
    · rcases hdisj with ⟨e, r2, hnee, hnle, hr2, ht, hle, hr⟩ | ⟨hfail, hle, hr⟩
      · have hle2 : le = some e := hle
        subst hle2
        subst hr
        subst ht
        exact popt_eq_some.mpr (Or.inl ⟨e, rfl,
          extraInner_eq_some.mpr ⟨hnee, hnle, hr2, rfl⟩⟩)
      · have hle2 : le = none := hle
        subst hle2
        subst hr
        exact popt_eq_some.mpr (Or.inr ⟨rfl, rfl, extraInner_eq_none.mpr hfail⟩)

/-- C7: `Loc::parse` accepts exactly the literal `"\t.loc\t"`, three
mandatory whitespace-separated unsigned integers bound to file, line,
column in that order, and an optional verbatim trailing span; the spec's
example line parses to `Loc 31 26 29 (some "is_stmt 0")`. -/
theorem c7_loc_parse :
    (∀ (cs r : List Char) (l : Loc), Loc.parse cs = some (r, l) ↔ LocShape cs r l)
    ∧ Loc.parse ("\t.loc\t31 26 29 is_stmt 0".toList)
        = some ([], Loc.mk 31 26 29 (some ("is_stmt 0".toList))) :=
  ⟨fun _ _ _ => Loc_parse_iff, by decide⟩

/-- Witness for C7: the shape extracted from a concrete accepted line. -/
theorem c7_witness : LocShape ("\t.loc\t1 2 3".toList) [] (Loc.mk 1 2 3 none) :=
  (c7_loc_parse.1 ("\t.loc\t1 2 3".toList) [] (Loc.mk 1 2 3 none)).mp (by decide)

theorem headNot_cons {p : Char → Bool} {c : Char} {r : List Char} (h : p c = false) :
    headNot p (c :: r) := by
  intro d hd
  simp only [List.head?_cons, Option.some.injEq] at hd
  exact hd ▸ h

theorem filename_eq_some {cs r s : List Char} :
    filename cs = some (r, s) ↔ s ≠ [] ∧ dq ∉ s ∧ cs = dq :: (s ++ dq :: r) := by
  unfold filename delimited
  rw [pmap_eq_some]
  constructor
  · rintro ⟨x, hx, hs⟩
    obtain ⟨m, h1, h2⟩ := pseq_eq_some.mp hx
    obtain ⟨m2, h3, h4⟩ := pseq_eq_some.mp h1
    obtain ⟨_, hcs⟩ := tag_eq_some.mp h3
    obtain ⟨hne, hall, hhn, hm2⟩ := takeWhile1_eq_some.mp h4
    obtain ⟨_, hm⟩ := tag_eq_some.mp h2
    subst hs
    refine ⟨hne, ?_, ?_⟩
    · intro hmem
      have := hall dq hmem
      simp at this
    · rw [hcs, hm2, hm]
      rfl
  · rintro ⟨hne, hnq, hcs⟩
    subst hcs
    refine ⟨(([dq], s), [dq]), ?_, rfl⟩
    refine pseq_eq_some.mpr ⟨dq :: r, ?_, tag_eq_some.mpr ⟨rfl, rfl⟩⟩
    refine pseq_eq_some.mpr ⟨s ++ dq :: r, tag_eq_some.mpr ⟨rfl, rfl⟩, ?_⟩
    refine takeWhile1_eq_some.mpr ⟨hne, ?_, headNot_cons (by simp), rfl⟩
    intro c hc
    exact bne_iff_ne.mpr (fun hh => hnq (hh ▸ hc))

theorem spacedQuoted_eq_some {t r sp s : List Char} :
    pseq space1 filename t = some (r, (sp, s)) ↔
      SpaceRun sp ∧ s ≠ [] ∧ dq ∉ s ∧ t = sp ++ dq :: (s ++ dq :: r) := by
  constructor
  · intro h
    obtain ⟨m, hsp, hfn⟩ := pseq_eq_some.mp h
    obtain ⟨hnesp, hallsp, _, hm⟩ := takeWhile1_eq_some.mp hsp
    obtain ⟨hne, hnq, hm2⟩ := filename_eq_some.mp hfn
    exact ⟨⟨hnesp, hallsp⟩, hne, hnq, by rw [hm, hm2]⟩
  · rintro ⟨⟨hnesp, hallsp⟩, hne, hnq, ht⟩
    subst ht
    refine pseq_eq_some.mpr ⟨dq :: (s ++ dq :: r), ?_, filename_eq_some.mpr ⟨hne, hnq, rfl⟩⟩
    exact takeWhile1_eq_some.mpr ⟨hnesp, hallsp, headNot_cons (by decide), rfl⟩

theorem spacedQuoted_eq_none {t : List Char} :
    pseq space1 filename t = none ↔ ¬ SpacedQuoted t := by
  constructor
  · intro h hsq
    obtain ⟨sp, s, r2, hsp, hne, hnq, ht⟩ := hsq
    have := spacedQuoted_eq_some.mpr ⟨hsp, hne, hnq, ht⟩
    rw [this] at h
    cases h
  · intro h
    cases hps : pseq space1 filename t with
    | none => rfl
    | some v =>
      obtain ⟨r2, sp, s⟩ := v
      obtain ⟨hsp, hne, hnq, ht⟩ := spacedQuoted_eq_some.mp hps
      exact absurd ⟨sp, s, r2, hsp, hne, hnq, ht⟩ h

theorem spacedHex_eq_some {t r sp h : List Char} :
    pseq space1 hexDigit1 t = some (r, (sp, h)) ↔
      SpaceRun sp ∧ HexRun h ∧ headNot isHexChar r ∧ t = sp ++ (h ++ r) := by
  constructor
  · intro hps
    obtain ⟨m, hsp, hhx⟩ := pseq_eq_some.mp hps
    obtain ⟨hnesp, hallsp, _, hm⟩ := takeWhile1_eq_some.mp hsp
    obtain ⟨hneh, hallh, hhn, hm2⟩ := takeWhile1_eq_some.mp hhx
    exact ⟨⟨hnesp, hallsp⟩, ⟨hneh, hallh⟩, hhn, by rw [hm, hm2]⟩
  · rintro ⟨⟨hnesp, hallsp⟩, ⟨hneh, hallh⟩, hhn, ht⟩
    subst ht
    refine pseq_eq_some.mpr ⟨h ++ r, ?_, takeWhile1_eq_some.mpr ⟨hneh, hallh, hhn, rfl⟩⟩
    exact takeWhile1_eq_some.mpr ⟨hnesp, hallsp,
      headNot_of_run hneh hallh (fun c hx => hex_not_space hx), rfl⟩

theorem spacedHex_eq_none {t : List Char} :
    pseq space1 hexDigit1 t = none ↔ ¬ SpacedHex t := by
  constructor
  · intro hn hsh
    obtain ⟨sp, c, r2, hsp, hhx, ht⟩ := hsh
    subst ht
    have htw : (c :: r2).takeWhile isHexChar = c :: r2.takeWhile isHexChar := by
      rw [List.takeWhile_cons, if_pos hhx]
    have hsucc := (@spacedHex_eq_some (sp ++ c :: r2) ((c :: r2).dropWhile isHexChar)
        sp ((c :: r2).takeWhile isHexChar)).mpr
      ⟨hsp, ⟨by rw [htw]; exact List.cons_ne_nil c _,
        fun d hd => List.mem_takeWhile_imp hd⟩, headNot_dropWhile (c :: r2),
        by rw [List.takeWhile_append_dropWhile]⟩
    rw [hsucc] at hn
    cases hn
  · intro h
    cases hps : pseq space1 hexDigit1 t with
    | none => rfl
    | some v =>
      obtain ⟨r2, sp, hx⟩ := v
      obtain ⟨hsp, ⟨hneh, hallh⟩, _, ht⟩ := spacedHex_eq_some.mp hps
      cases hhx : hx with
      | nil => exact absurd hhx hneh
      | cons c hx2 =>
        refine absurd ⟨sp, c, hx2 ++ r2, hsp, hallh c (by rw [hhx]; simp), ?_⟩ h
        rw [ht, hhx]
        simp

theorem opt2_char {t r : List Char} {x : Option (List Char × List Char)} :
    popt (pseq space1 filename) t = some (r, x) ↔
      (∃ sp s, x = some (sp, s) ∧ SpaceRun sp ∧ s ≠ [] ∧ dq ∉ s ∧
        t = sp ++ dq :: (s ++ dq :: r))
      ∨ (x = none ∧ r = t ∧ ¬ SpacedQuoted t) := by
  rw [popt_eq_some]
  constructor
  · rintro (⟨a, hx, ha⟩ | ⟨hx, hr, hn⟩)
    · obtain ⟨sp, s⟩ := a
      obtain ⟨hsp, hne, hnq, ht⟩ := spacedQuoted_eq_some.mp ha
      exact Or.inl ⟨sp, s, hx, hsp, hne, hnq, ht⟩
    · exact Or.inr ⟨hx, hr, spacedQuoted_eq_none.mp hn⟩
  · rintro (⟨sp, s, hx, hsp, hne, hnq, ht⟩ | ⟨hx, hr, hn⟩)
    · exact Or.inl ⟨(sp, s), hx, spacedQuoted_eq_some.mpr ⟨hsp, hne, hnq, ht⟩⟩
    · exact Or.inr ⟨hx, hr, spacedQuoted_eq_none.mpr hn⟩

theorem md5_char {t r : List Char} {x : Option (List Char × List Char)} :
    popt (pseq space1 hexDigit1) t = some (r, x) ↔
      (∃ sp h, x = some (sp, h) ∧ SpaceRun sp ∧ HexRun h ∧ headNot isHexChar r ∧
        t = sp ++ (h ++ r))
      ∨ (x = none ∧ r = t ∧ ¬ SpacedHex t) := by
  rw [popt_eq_some]
  constructor
  · rintro (⟨a, hx, ha⟩ | ⟨hx, hr, hn⟩)
    · obtain ⟨sp, h⟩ := a
      obtain ⟨hsp, hh, hhn, ht⟩ := spacedHex_eq_some.mp ha
      exact Or.inl ⟨sp, h, hx, hsp, hh, hhn, ht⟩
    · exact Or.inr ⟨hx, hr, spacedHex_eq_none.mp hn⟩
  · rintro (⟨sp, h, hx, hsp, hh, hhn, ht⟩ | ⟨hx, hr, hn⟩)
    · exact Or.inl ⟨(sp, h), hx, spacedHex_eq_some.mpr ⟨hsp, hh, hhn, ht⟩⟩
    · exact Or.inr ⟨hx, hr, spacedHex_eq_none.mpr hn⟩

theorem fileHead_chain {ds sp1 s1 t1 : List Char} (hds : DigitRun ds) (hsp1 : SpaceRun sp1)
    (hne1 : s1 ≠ []) (hnq1 : dq ∉ s1) (hlt : decVal ds < 2 ^ 64) :
    pseq (pseq (pseq (tag tFile) parseU64) space1) filename
      (tFile ++ (ds ++ (sp1 ++ dq :: (s1 ++ dq :: t1))))
      = some (t1, (((tFile, decVal ds), sp1), s1)) := by
  obtain ⟨hne, hall⟩ := hds
  obtain ⟨hnesp, hallsp⟩ := hsp1
  refine pseq_eq_some.mpr ⟨dq :: (s1 ++ dq :: t1), ?_,
    filename_eq_some.mpr ⟨hne1, hnq1, rfl⟩⟩
  refine pseq_eq_some.mpr ⟨sp1 ++ dq :: (s1 ++ dq :: t1), ?_, ?_⟩
  · refine pseq_eq_some.mpr ⟨ds ++ (sp1 ++ dq :: (s1 ++ dq :: t1)),
      tag_eq_some.mpr ⟨rfl, rfl⟩, ?_⟩
    exact parseU64_eq_some.mpr ⟨ds, ⟨hne, hall⟩,
      headNot_of_run hnesp hallsp (fun c h => space_not_digit h), rfl, rfl, hlt⟩
  · exact takeWhile1_eq_some.mpr ⟨hnesp, hallsp, headNot_cons (by decide), rfl⟩

theorem File_parse_iff {cs r : List Char} {f : File} :
    File.parse cs = some (r, f) ↔ FileShape cs r f := by
  obtain ⟨fidx, fpath, fmd5⟩ := f
  unfold File.parse
  rw [pmap_eq_some]
  constructor
  · rintro ⟨x, hx, hf⟩
    obtain ⟨⟨⟨⟨⟨tg, fileno⟩, spv⟩, fp⟩, fname⟩, md5v⟩ := x
    obtain ⟨n5, hA4, hopt3⟩ := pseq_eq_some.mp hx
    obtain ⟨n4, hA3, hopt2⟩ := pseq_eq_some.mp hA4
    obtain ⟨n3, hA2, hfn1⟩ := pseq_eq_some.mp hA3
    obtain ⟨n2, hA1, hsp1⟩ := pseq_eq_some.mp hA2
    obtain ⟨n1, htag, hu1⟩ := pseq_eq_some.mp hA1
    obtain ⟨_, hcs⟩ := tag_eq_some.mp htag
    obtain ⟨ds, hdsrun, _, hn1, hfileno, hlt⟩ := parseU64_eq_some.mp hu1
    obtain ⟨hnesp, hallsp, _, hn2⟩ := takeWhile1_eq_some.mp hsp1
    obtain ⟨hne1, hnq1, hn3⟩ := filename_eq_some.mp hfn1
    subst hfileno
    rcases opt2_char.mp hopt2 with
      ⟨sp2, s2, hxval, hsp2, hne2, hnq2, hn4⟩ | ⟨hxnone, hn5eq, hnsq⟩
    · subst hxval
      rcases md5_char.mp hopt3 with
        ⟨sp3, h3, hmv, hsp3, hh3, hhn3, hn5⟩ | ⟨hmv, hrt, hnsh⟩
      · subst hmv
        injection hf with hidx hpath hmd5
        subst hidx
        subst hpath
        subst hmd5
        refine ⟨ds, spv, fp, n4, hdsrun, ⟨hnesp, hallsp⟩, hne1, hnq1, hlt, rfl, ?_, ?_⟩
        · rw [hcs, hn1, hn2, hn3]
        · exact Or.inl ⟨sp2, s2, n5, hsp2, hne2, hnq2, hn4, rfl,
            Or.inl ⟨sp3, h3, hsp3, hh3, hhn3, hn5, rfl⟩⟩
      · subst hmv
        injection hf with hidx hpath hmd5
        subst hidx
        subst hpath
        subst hmd5
        refine ⟨ds, spv, fp, n4, hdsrun, ⟨hnesp, hallsp⟩, hne1, hnq1, hlt, rfl, ?_, ?_⟩
        · rw [hcs, hn1, hn2, hn3]
        · exact Or.inl ⟨sp2, s2, n5, hsp2, hne2, hnq2, hn4, rfl,
            Or.inr ⟨hnsh, hrt, rfl⟩⟩
    · subst hxnone
      subst hn5eq
      rcases md5_char.mp hopt3 with
        ⟨sp3, h3, hmv, hsp3, hh3, hhn3, hn5⟩ | ⟨hmv, hrt, hnsh⟩
      · subst hmv
        injection hf with hidx hpath hmd5
        subst hidx
        subst hpath
        subst hmd5
        refine ⟨ds, spv, fp, n5, hdsrun, ⟨hnesp, hallsp⟩, hne1, hnq1, hlt, rfl, ?_, ?_⟩
        · rw [hcs, hn1, hn2, hn3]
        · exact Or.inr ⟨hnsq, rfl, Or.inl ⟨sp3, h3, hsp3, hh3, hhn3, hn5, rfl⟩⟩
      · subst hmv
        injection hf with hidx hpath hmd5
        subst hidx
        subst hpath
        subst hmd5
        refine ⟨ds, spv, fp, n5, hdsrun, ⟨hnesp, hallsp⟩, hne1, hnq1, hlt, rfl, ?_, ?_⟩
        · rw [hcs, hn1, hn2, hn3]
        · exact Or.inr ⟨hnsq, rfl, Or.inr ⟨hnsh, hrt, rfl⟩⟩
  · rintro ⟨ds, sp1, s1, t1, hds, hsp1, hne1, hnq1, hlt, hidx, hcs, hdisj⟩
    have hidx2 : fidx = decVal ds := hidx
    subst hidx2
    subst hcs
    rcases hdisj with ⟨sp2, s2, t2, hsp2, hne2, hnq2, ht1, hpath, hmd5t⟩ |
      ⟨hnsq, hpath, hmd5t⟩
    · have hpath2 : fpath = FilePath.PathAndFileName s1 s2 := hpath
      subst hpath2
      subst ht1
      rcases hmd5t with ⟨sp3, h3, hsp3, hh3, hhn3, ht2, hm⟩ | ⟨hnsh, hrt, hm⟩
      · have hm2 : fmd5 = some h3 := hm
        subst hm2
        subst ht2
        refine ⟨(((((tFile, decVal ds), sp1), s1), some (sp2, s2)), some (sp3, h3)),
          ?_, rfl⟩
        refine pseq_eq_some.mpr ⟨sp3 ++ (h3 ++ r), ?_,
          md5_char.mpr (Or.inl ⟨sp3, h3, rfl, hsp3, hh3, hhn3, rfl⟩)⟩
        exact pseq_eq_some.mpr ⟨sp2 ++ dq :: (s2 ++ dq :: (sp3 ++ (h3 ++ r))),
          fileHead_chain hds hsp1 hne1 hnq1 hlt,
          opt2_char.mpr (Or.inl ⟨sp2, s2, rfl, hsp2, hne2, hnq2, rfl⟩)⟩
      · have hm2 : fmd5 = none := hm
        subst hm2
        subst hrt
        refine ⟨(((((tFile, decVal ds), sp1), s1), some (sp2, s2)), none), ?_, rfl⟩
        refine pseq_eq_some.mpr ⟨r, ?_, md5_char.mpr (Or.inr ⟨rfl, rfl, hnsh⟩)⟩
        exact pseq_eq_some.mpr ⟨sp2 ++ dq :: (s2 ++ dq :: r),
          fileHead_chain hds hsp1 hne1 hnq1 hlt,
          opt2_char.mpr (Or.inl ⟨sp2, s2, rfl, hsp2, hne2, hnq2, rfl⟩)⟩
    · have hpath2 : fpath = FilePath.FullPath s1 := hpath
      subst hpath2
      rcases hmd5t with ⟨sp3, h3, hsp3, hh3, hhn3, ht2, hm⟩ | ⟨hnsh, hrt, hm⟩
      · have hm2 : fmd5 = some h3 := hm
        subst hm2
        subst ht2
        refine ⟨(((((tFile, decVal ds), sp1), s1), none), some (sp3, h3)), ?_, rfl⟩
        refine pseq_eq_some.mpr ⟨sp3 ++ (h3 ++ r), ?_,
          md5_char.mpr (Or.inl ⟨sp3, h3, rfl, hsp3, hh3, hhn3, rfl⟩)⟩
        exact pseq_eq_some.mpr ⟨sp3 ++ (h3 ++ r),
          fileHead_chain hds hsp1 hne1 hnq1 hlt,
          opt2_char.mpr (Or.inr ⟨rfl, rfl, hnsq⟩)⟩
      · have hm2 : fmd5 = none := hm
        subst hm2
        subst hrt
        refine ⟨(((((tFile, decVal ds), sp1), s1), none), none), ?_, rfl⟩
        refine pseq_eq_some.mpr ⟨r, ?_, md5_char.mpr (Or.inr ⟨rfl, rfl, hnsh⟩)⟩
        exact pseq_eq_some.mpr ⟨r, fileHead_chain hds hsp1 hne1 hnq1 hlt,
          opt2_char.mpr (Or.inr ⟨rfl, rfl, hnsq⟩)⟩

/-- C5: `File::parse` accepts exactly the literal `"\t.file\t"`, an
unsigned index, one quoted string, an optional second quoted string, and
an optional unquoted trailing hex digest; one quoted string yields
`FullPath`, two yield `PathAndFileName`. -/
theorem c5_file_parse :
    ∀ (cs r : List Char) (f : File), File.parse cs = some (r, f) ↔ FileShape cs r f :=
  fun _ _ _ => File_parse_iff

/-- Witness for C5: the shape extracted from a concrete two-string line,
whose path is `PathAndFileName`. -/
theorem c5_witness : FileShape ("\t.file\t2 \"a\" \"b\"".toList) []
    (File.mk 2 (FilePath.PathAndFileName ['a'] ['b']) none) :=
  (c5_file_parse ("\t.file\t2 \"a\" \"b\"".toList) []
    (File.mk 2 (FilePath.PathAndFileName ['a'] ['b']) none)).mp (by decide)

theorem decCharsF_congr : ∀ f1 f2 n, n < f1 → n < f2 → decCharsF f1 n = decCharsF f2 n := by
  intro f1
  induction f1 with
  | zero => intro f2 n h1; omega
  | succ f1 ih =>
    intro f2 n h1 h2
    cases f2 with
    | zero => omega
    | succ f2 =>
      show (if n < 10 then [digitChar n] else decCharsF f1 (n / 10) ++ [digitChar (n % 10)])
        = (if n < 10 then [digitChar n] else decCharsF f2 (n / 10) ++ [digitChar (n % 10)])
      by_cases h : n < 10
      · rw [if_pos h, if_pos h]
      · rw [if_neg h, if_neg h]
        have hd : n / 10 < n := Nat.div_lt_self (by omega) (by omega)
        rw [ih f2 (n / 10) (by omega) (by omega)]

theorem decChars_eq (n : Nat) :
    decChars n = if n < 10 then [digitChar n]
      else decChars (n / 10) ++ [digitChar (n % 10)] := by
  show (if n < 10 then [digitChar n] else decCharsF n (n / 10) ++ [digitChar (n % 10)]) = _
  by_cases h : n < 10
  · rw [if_pos h, if_pos h]
  · rw [if_neg h, if_neg h]
    have hd : n / 10 < n := Nat.div_lt_self (by omega) (by omega)
    rw [decCharsF_congr n (n / 10 + 1) (n / 10) (by omega) (by omega)]
    rfl

theorem digitChar_isDigit {d : Nat} (h : d < 10) : isDigitChar (digitChar d) = true := by
  interval_cases d <;> decide

theorem digitChar_toNat {d : Nat} (h : d < 10) : (digitChar d).toNat - 48 = d := by
  interval_cases d <;> decide

theorem decVal_append_one (xs : List Char) (c : Char) :
    decVal (xs ++ [c]) = 10 * decVal xs + (c.toNat - 48) := by
  unfold decVal
  rw [List.foldl_append]
  rfl

theorem decChars_ne_nil (n : Nat) : decChars n ≠ [] := by
  induction n using Nat.strong_induction_on with
  | _ n ih =>
    rw [decChars_eq]
    by_cases h : n < 10
    · rw [if_pos h]
      simp
    · rw [if_neg h]
      simp

theorem decChars_digits (n : Nat) : ∀ c ∈ decChars n, isDigitChar c = true := by
  induction n using Nat.strong_induction_on with
  | _ n ih =>
    rw [decChars_eq]
    by_cases h : n < 10
    · rw [if_pos h]
      intro c hc
      simp only [List.mem_singleton] at hc
      exact hc ▸ digitChar_isDigit h
    · rw [if_neg h]
      intro c hc
      rcases List.mem_append.mp hc with hc1 | hc2
      · exact ih (n / 10) (Nat.div_lt_self (by omega) (by omega)) c hc1
      · simp only [List.mem_singleton] at hc2
        exact hc2 ▸ digitChar_isDigit (Nat.mod_lt n (by omega))

theorem decVal_decChars (n : Nat) : decVal (decChars n) = n := by
  induction n using Nat.strong_induction_on with
  | _ n ih =>
    rw [decChars_eq]
    by_cases h : n < 10
    · rw [if_pos h]
      show 10 * 0 + ((digitChar n).toNat - 48) = n
      rw [digitChar_toNat h]
      omega
    · rw [if_neg h, decVal_append_one,
        ih (n / 10) (Nat.div_lt_self (by omega) (by omega)),
        digitChar_toNat (Nat.mod_lt n (by omega))]
      omega

/-- A digit run built by `decChars` is a `DigitRun`. -/
theorem decChars_run (n : Nat) : DigitRun (decChars n) :=
  ⟨decChars_ne_nil n, decChars_digits n⟩

theorem spaceRun_single : SpaceRun [' '] := by
  refine ⟨by simp, ?_⟩
  intro c hc
  simp only [List.mem_singleton] at hc
  subst hc
  decide

theorem tag_tFile_tLoc_none (x : List Char) : tag tFile (tLoc ++ x) = none := by
  cases ht : tag tFile (tLoc ++ x) with
  | none => rfl
  | some v =>
    obtain ⟨m, y⟩ := v
    obtain ⟨_, h2⟩ := tag_eq_some.mp ht
    have h3 : '\t' :: '.' :: 'l' :: ('o' :: 'c' :: '\t' :: x)
        = '\t' :: '.' :: 'f' :: ('i' :: 'l' :: 'e' :: '\t' :: m) := h2
    injection h3 with _ h4
    injection h4 with _ h5
    injection h5 with h6 _
    exact absurd h6 (by decide)

theorem fileParse_tLoc_none (x : List Char) : File.parse (tLoc ++ x) = none :=
  pmap_eq_none.mpr (pseq_eq_none_left (pseq_eq_none_left (pseq_eq_none_left
    (pseq_eq_none_left (pseq_eq_none_left (tag_tFile_tLoc_none x))))))

theorem locParse_head {cs r : List Char} {l : Loc} (h : Loc.parse cs = some (r, l)) :
    ∃ u, cs = tLoc ++ u := by
  obtain ⟨x, hx, _⟩ := pmap_eq_some.mp h
  obtain ⟨m6, hA, _⟩ := pseq_eq_some.mp hx
  obtain ⟨m5, hB, _⟩ := pseq_eq_some.mp hA
  obtain ⟨m4, hC, _⟩ := pseq_eq_some.mp hB
  obtain ⟨m3, hD, _⟩ := pseq_eq_some.mp hC
  obtain ⟨m2, hE, _⟩ := pseq_eq_some.mp hD
  obtain ⟨m1, htag, _⟩ := pseq_eq_some.mp hE
  exact ⟨m1, (tag_eq_some.mp htag).2⟩

theorem loc_statement_of_parse {cs : List Char} {l : Loc}
    (h : Loc.parse cs = some (['\n'], l)) :
    parse_statement cs = some ([], Statement.Directive (Directive.Loc l)) := by
  obtain ⟨u, hu⟩ := locParse_head h
  subst hu
  have hlab : terminated labelStmt newline (tLoc ++ u) = none := by
    rw [show tLoc ++ u = '\t' :: (['.', 'l', 'o', 'c', '\t'] ++ u) from rfl]
    exact terminated_none_left (labelStmt_none_head (by decide) (by decide))
  have hfile : fileDir (tLoc ++ u) = none := pmap_eq_none.mpr (fileParse_tLoc_none u)
  have hdirs : terminated dirStmt newline (tLoc ++ u)
      = some ([], Statement.Directive (Directive.Loc l)) := by
    refine terminated_newline_eq_some.mpr ?_
    unfold dirStmt
    refine pmap_eq_some.mpr ⟨Directive.Loc l, ?_, rfl⟩
    refine palt_eq_some.mpr (Or.inr ⟨hfile, palt_eq_some.mpr (Or.inl ?_)⟩)
    exact pmap_eq_some.mpr ⟨l, h, rfl⟩
  unfold parse_statement
  exact palt_eq_some.mpr (Or.inr ⟨hlab, palt_eq_some.mpr (Or.inl hdirs)⟩)

/-- Counterexample to C9: the `Directive::File` statement parsed from
`"\t.file\t9 \"/a/b\"\n"` renders (without color or demangling) to
`"\t.file\t9 /a/b"` — the quotes are gone — and re-parsing the rendered
line yields `Directive::Generic`, not an equal `Directive::File`. -/
theorem c9_counterexample :
    File.parse ("\t.file\t9 \"/a/b\"\n".toList)
      = some ("\n".toList, File.mk 9 (FilePath.FullPath "/a/b".toList) none)
    ∧ displayFile (File.mk 9 (FilePath.FullPath "/a/b".toList) none)
      = "\t.file\t9 /a/b".toList
    ∧ parse_statement
        (displayFile (File.mk 9 (FilePath.FullPath "/a/b".toList) none) ++ ['\n'])
      = some ([], Statement.Directive (Directive.Generic
          (GenericDirective.mk "file\t9 /a/b".toList)))
    ∧ Statement.Directive (Directive.Generic (GenericDirective.mk "file\t9 /a/b".toList))
      ≠ Statement.Directive (Directive.File
          (File.mk 9 (FilePath.FullPath "/a/b".toList) none)) :=
  ⟨by decide, by decide, by decide, by decide⟩

/-- C9 amended: re-rendering holds for `Loc`: every `Loc` produced by
parsing, rendered back to text (no color, no demangling) and re-parsed as
a line, yields an equal `Directive::Loc` statement. (`Directive::File`
does not round-trip: its rendering drops the quotes, see the
counterexample.) -/
theorem c9_loc_roundtrip :
    ∀ (cs r0 : List Char) (l : Loc), Loc.parse cs = some (r0, l) →
      parse_statement (displayLoc l ++ ['\n'])
        = some ([], Statement.Directive (Directive.Loc l)) := by
  intro cs r0 l hp
  obtain ⟨lf, ll, lc, le⟩ := l
  obtain ⟨d1, sp1, d2, sp2, d3, t, hd1, hsp1v, hd2, hsp2v, hd3, hlt1, hlt2, hlt3,
    hf, hl2, hc2, hhn, hcs, hdisj⟩ := Loc_parse_iff.mp hp
  have hf2 : lf = decVal d1 := hf
  have hl3 : ll = decVal d2 := hl2
  have hc3 : lc = decVal d3 := hc2
  have hltf : lf < 2 ^ 64 := by rw [hf2]; exact hlt1
  have hltl : ll < 2 ^ 64 := by rw [hl3]; exact hlt2
  have hltc : lc < 2 ^ 64 := by rw [hc3]; exact hlt3
  apply loc_statement_of_parse
  rcases hdisj with ⟨e, r2, hnee, hnle, hr2, ht, hle, hr⟩ | ⟨hfail, hle, hr⟩
  · have hle2 : le = some e := hle
    subst hle2
    refine Loc_parse_iff.mpr ⟨decChars lf, [' '], decChars ll, [' '], decChars lc,
      ' ' :: (e ++ ['\n']), decChars_run lf, spaceRun_single, decChars_run ll,
      spaceRun_single, decChars_run lc, ?_, ?_, ?_, ?_, ?_, ?_, headNot_cons (by decide), ?_,
      Or.inl ⟨e, ['\n'], hnee, hnle, ?_, rfl, rfl, rfl⟩⟩
    · rw [decVal_decChars]; exact hltf
    · rw [decVal_decChars]; exact hltl
    · rw [decVal_decChars]; exact hltc
    · exact (decVal_decChars lf).symm
    · exact (decVal_decChars ll).symm
    · exact (decVal_decChars lc).symm
    · simp [displayLoc, List.append_assoc]
    · intro c hc
      simp only [List.head?_cons, Option.some.injEq] at hc
      exact hc.symm
  · have hle2 : le = none := hle
    subst hle2
    refine Loc_parse_iff.mpr ⟨decChars lf, [' '], decChars ll, [' '], decChars lc,
      ['\n'], decChars_run lf, spaceRun_single, decChars_run ll,
      spaceRun_single, decChars_run lc, ?_, ?_, ?_, ?_, ?_, ?_, headNot_cons (by decide), ?_,
      Or.inr ⟨?_, rfl, rfl⟩⟩
    · rw [decVal_decChars]; exact hltf
    · rw [decVal_decChars]; exact hltl
    · rw [decVal_decChars]; exact hltc
    · exact (decVal_decChars lf).symm
    · exact (decVal_decChars ll).symm
    · exact (decVal_decChars lc).symm
    · simp [displayLoc, List.append_assoc]
    · intro e2 he2
      injection he2 with h1 _
      exact absurd h1 (by decide)

/-- Witness for the amended C9 at the concrete `Loc 1 2 3` with no extra
span, parsed from `"\t.loc\t1 2 3"`. -/
theorem c9_witness :
    parse_statement (displayLoc (Loc.mk 1 2 3 none) ++ ['\n'])
      = some ([], Statement.Directive (Directive.Loc (Loc.mk 1 2 3 none))) :=
  c9_loc_roundtrip ("\t.loc\t1 2 3".toList) [] (Loc.mk 1 2 3 none) (by decide)

end Asm
